import Mathlib

/-!
Verification development for the planar topological-relationship engine
(the relate / geometry-graph subsystem of the geo library) and for the
geodesic bearing convenience trait.

The repository's visible sources are the `EdgeSetIntersector` trait
declaration (`src/geo/src/algorithm/relate/geomgraph/index/edge_set_intersector.rs`)
and the `GeodesicBearing` trait with its `Point<f64>` implementation
(`src/geo/src/algorithm/geodesic_bearing.rs`).  The remaining components
(the two `EdgeSetIntersector` implementations, `SegmentIntersector`, the
noder, the labeling pass and the relate driver) are specified in spec.md
but their code is not included, so they are modelled here from the spec.

Coordinates are embedded as exact rationals, standing for the generic
floating-precision numeric type of the library.
-/

/-- A 2D coordinate with exact rational components, standing for the
generic floating-precision coordinate type of the library. -/
@[ext]
structure Coord where
  x : ℚ
  y : ℚ
deriving DecidableEq, Repr

instance : Inhabited Coord := ⟨⟨0, 0⟩⟩

/-- Twice the signed area of the triangle p q r: the orientation test
underlying segment-segment intersection classification. -/
def orient2d (p q r : Coord) : ℚ :=
  (q.x - p.x) * (r.y - p.y) - (q.y - p.y) * (r.x - p.x)

/-- r lies within the axis-aligned bounding rectangle of the segment p-q. -/
def inBbox (p q r : Coord) : Prop :=
  min p.x q.x ≤ r.x ∧ r.x ≤ max p.x q.x ∧ min p.y q.y ≤ r.y ∧ r.y ≤ max p.y q.y

instance (p q r : Coord) : Decidable (inBbox p q r) := by
  unfold inBbox; infer_instance

/-- r lies on the closed segment p-q: collinear with it and inside its
bounding rectangle. -/
def onSegment (p q r : Coord) : Bool :=
  decide (orient2d p q r = 0) && decide (inBbox p q r)

/-- The segments a-b and c-d cross properly: each one strictly straddles
the supporting line of the other. -/
def properInter (a b c d : Coord) : Bool :=
  decide (orient2d a b c * orient2d a b d < 0) &&
    decide (orient2d c d a * orient2d c d b < 0)

/-- Segment-segment intersection test: the closed segments a-b and c-d
share at least one point (a proper crossing, an endpoint touch, or a
collinear overlap). -/
def segmentsIntersect (a b c d : Coord) : Bool :=
  properInter a b c d || onSegment a b c || onSegment a b d ||
    onSegment c d a || onSegment c d b

/-- The bounding extents of the segments a-b and c-d overlap. -/
def bboxOverlapP (a b c d : Coord) : Prop :=
  min a.x b.x ≤ max c.x d.x ∧ min c.x d.x ≤ max a.x b.x ∧
    min a.y b.y ≤ max c.y d.y ∧ min c.y d.y ≤ max a.y b.y

instance (a b c d : Coord) : Decidable (bboxOverlapP a b c d) := by
  unfold bboxOverlapP; infer_instance

/-- Boolean test for overlap of the bounding extents of a-b and c-d. -/
def bboxOverlap (a b c d : Coord) : Bool :=
  decide (bboxOverlapP a b c d)

/-- Affine interpolation along the segment a-b at parameter t. -/
def interp (a b : Coord) (t : ℚ) : Coord :=
  ⟨a.x + t * (b.x - a.x), a.y + t * (b.y - a.y)⟩

theorem interp_zero (a b : Coord) : interp a b 0 = a := by
  cases a; simp [interp]

theorem convex_bound (u v t : ℚ) (h0 : 0 ≤ t) (h1 : t ≤ 1) :
    min u v ≤ u + t * (v - u) ∧ u + t * (v - u) ≤ max u v := by
  rcases le_total u v with h | h
  · rw [min_eq_left h, max_eq_right h]
    constructor <;> nlinarith
  · rw [min_eq_right h, max_eq_left h]
    constructor <;> nlinarith

theorem inBbox_interp (a b : Coord) (t : ℚ) (h0 : 0 ≤ t) (h1 : t ≤ 1) :
    inBbox a b (interp a b t) := by
  obtain ⟨hx1, hx2⟩ := convex_bound a.x b.x t h0 h1
  obtain ⟨hy1, hy2⟩ := convex_bound a.y b.y t h0 h1
  exact ⟨hx1, hx2, hy1, hy2⟩

theorem param_bounds (p q : ℚ) (h : p * q < 0) :
    0 ≤ p / (p - q) ∧ p / (p - q) ≤ 1 := by
  rcases mul_neg_iff.mp h with ⟨hp, hq⟩ | ⟨hp, hq⟩
  · have hd : 0 < p - q := by linarith
    refine ⟨div_nonneg hp.le hd.le, ?_⟩
    rw [div_le_one hd]
    linarith
  · have hd : p - q < 0 := by linarith
    constructor
    · rw [div_nonneg_iff]
      exact Or.inr ⟨hp.le, hd.le⟩
    · rw [div_le_one_iff]
      exact Or.inr (Or.inr ⟨hd, by linarith⟩)

theorem inBbox_left (c d : Coord) : inBbox c d c :=
  ⟨min_le_left _ _, le_max_left _ _, min_le_left _ _, le_max_left _ _⟩

theorem inBbox_right (c d : Coord) : inBbox c d d :=
  ⟨min_le_right _ _, le_max_right _ _, min_le_right _ _, le_max_right _ _⟩

theorem bboxOverlap_of_shared (a b c d P : Coord)
    (h1 : inBbox a b P) (h2 : inBbox c d P) : bboxOverlap a b c d = true := by
  obtain ⟨x1, x2, y1, y2⟩ := h1
  obtain ⟨x3, x4, y3, y4⟩ := h2
  simp only [bboxOverlap, decide_eq_true_eq, bboxOverlapP]
  exact ⟨le_trans x1 x4, le_trans x3 x2, le_trans y1 y4, le_trans y3 y2⟩

theorem proper_shared (a b c d : Coord) (h : properInter a b c d = true) :
    ∃ P, inBbox a b P ∧ inBbox c d P := by
  simp only [properInter, Bool.and_eq_true, decide_eq_true_eq] at h
  obtain ⟨h1, h2⟩ := h
  obtain ⟨ht0, ht1⟩ := param_bounds _ _ h2
  obtain ⟨hs0, hs1⟩ := param_bounds _ _ h1
  refine ⟨interp a b (orient2d c d a / (orient2d c d a - orient2d c d b)),
    inBbox_interp _ _ _ ht0 ht1, ?_⟩
  have hd1 : orient2d c d a - orient2d c d b ≠ 0 := by
    rcases mul_neg_iff.mp h2 with ⟨hp, hq⟩ | ⟨hp, hq⟩ <;> intro hc <;> linarith
  have hd2 : orient2d a b c - orient2d a b d ≠ 0 := by
    rcases mul_neg_iff.mp h1 with ⟨hp, hq⟩ | ⟨hp, hq⟩ <;> intro hc <;> linarith
  have key : interp a b (orient2d c d a / (orient2d c d a - orient2d c d b)) =
      interp c d (orient2d a b c / (orient2d a b c - orient2d a b d)) := by
    simp only [orient2d] at hd1 hd2 ⊢
    unfold interp
    ext <;> field_simp <;> ring
  rw [key]
  exact inBbox_interp _ _ _ hs0 hs1

theorem inter_imp_overlap (a b c d : Coord)
    (h : segmentsIntersect a b c d = true) : bboxOverlap a b c d = true := by
  simp only [segmentsIntersect, Bool.or_eq_true] at h
  have onSeg : ∀ p q r : Coord, onSegment p q r = true → inBbox p q r := by
    intro p q r hr
    simp only [onSegment, Bool.and_eq_true, decide_eq_true_eq] at hr
    exact hr.2
  rcases h with (((hp | h1) | h2) | h3) | h4
  · obtain ⟨P, hP1, hP2⟩ := proper_shared a b c d hp
    exact bboxOverlap_of_shared a b c d P hP1 hP2
  · exact bboxOverlap_of_shared a b c d c (onSeg _ _ _ h1) (inBbox_left c d)
  · exact bboxOverlap_of_shared a b c d d (onSeg _ _ _ h2) (inBbox_right c d)
  · exact bboxOverlap_of_shared a b c d a (inBbox_left a b) (onSeg _ _ _ h3)
  · exact bboxOverlap_of_shared a b c d b (inBbox_right a b) (onSeg _ _ _ h4)

/-- A reference to one segment of one edge: the owning edge's index in
the edge set, the segment's index along that edge, and the two segment
endpoints.  This is the unit on which `SegmentIntersector` is invoked. -/
structure SegRef where
  edgeIdx : ℕ
  segIdx : ℕ
  p0 : Coord
  p1 : Coord
deriving DecidableEq, Repr

/-- The segment references of the edge with index i whose coordinate
sequence is e (consecutive coordinate pairs). -/
def segRefsOf (i : ℕ) (e : List Coord) : List SegRef :=
  (List.range (e.length - 1)).map fun j => ⟨i, j, e.getD j default, e.getD (j + 1) default⟩

/-- Modelled from the spec: the pair enumeration performed by
`compute_intersections_within_set` (the implementations of the
`EdgeSetIntersector` trait are not under src/, only the trait itself).
Every ordered pair of segments drawn from the edge set is handed to the
`SegmentIntersector`, except that when `checkSelf` is false segments of
the same edge are never paired, and a segment is never paired with
itself under any flag value. -/
def testedWithin (edges : List (List Coord)) (checkSelf : Bool) :
    List (SegRef × SegRef) :=
  (List.range edges.length).flatMap fun i0 =>
    (List.range edges.length).flatMap fun i1 =>
      if checkSelf = true ∨ i0 ≠ i1 then
        (segRefsOf i0 (edges.getD i0 [])).flatMap fun r0 =>
          (segRefsOf i1 (edges.getD i1 [])).filterMap fun r1 =>
            if i0 = i1 ∧ r0.segIdx = r1.segIdx then none else some (r0, r1)
      else []

/-- Modelled from the spec: the pair enumeration performed by
`compute_intersections_between_sets`: every pair drawn one segment from
each edge set. -/
def testedBetween (edges0 edges1 : List (List Coord)) :
    List (SegRef × SegRef) :=
  (List.range edges0.length).flatMap fun i0 =>
    (List.range edges1.length).flatMap fun i1 =>
      (segRefsOf i0 (edges0.getD i0 [])).flatMap fun r0 =>
        (segRefsOf i1 (edges1.getD i1 [])).map fun r1 => (r0, r1)

/-- Whether the pair of segments referenced by rr intersects; the
intersections recorded on the edges by the `SegmentIntersector` are
exactly those of the tested pairs satisfying this. -/
def pairIntersects (rr : SegRef × SegRef) : Bool :=
  segmentsIntersect rr.1.p0 rr.1.p1 rr.2.p0 rr.2.p1

/-- Whether the bounding extents of the pair of segments referenced by
rr overlap; a spatial index may prune pairs failing this. -/
def pairBboxOverlap (rr : SegRef × SegRef) : Bool :=
  bboxOverlap rr.1.p0 rr.1.p1 rr.2.p0 rr.2.p1

/-- The intersecting pairs reported by the brute-force within-set
strategy: every tested pair whose segments intersect. -/
def withinSetBrute (edges : List (List Coord)) (checkSelf : Bool) :
    List (SegRef × SegRef) :=
  (testedWithin edges checkSelf).filter pairIntersects

/-- Modelled from the spec: the spatially-indexed within-set strategy
first prunes, through the index, every pair whose bounding extents do
not overlap, and then tests only the surviving pairs. -/
def withinSetIndexed (edges : List (List Coord)) (checkSelf : Bool) :
    List (SegRef × SegRef) :=
  ((testedWithin edges checkSelf).filter pairBboxOverlap).filter pairIntersects

/-- The intersecting pairs reported by the brute-force between-sets
strategy. -/
def betweenSetsBrute (edges0 edges1 : List (List Coord)) :
    List (SegRef × SegRef) :=
  (testedBetween edges0 edges1).filter pairIntersects

/-- Modelled from the spec: the spatially-indexed between-sets strategy,
pruning by bounding-extent overlap before testing. -/
def betweenSetsIndexed (edges0 edges1 : List (List Coord)) :
    List (SegRef × SegRef) :=
  ((testedBetween edges0 edges1).filter pairBboxOverlap).filter pairIntersects

theorem filter_overlap_absorb (l : List (SegRef × SegRef)) :
    (l.filter pairBboxOverlap).filter pairIntersects = l.filter pairIntersects := by
  rw [List.filter_filter]
  apply List.filter_congr
  intro rr _
  cases hI : pairIntersects rr
  · simp
  · have : pairBboxOverlap rr = true :=
      inter_imp_overlap _ _ _ _ hI
    simp [this]

/-- C1: For every edge set (and every pair of edge sets) and every
SegmentIntersector run, the brute-force and the spatially-indexed
EdgeSetIntersector strategies report exactly the same intersecting
pairs, both for `compute_intersections_within_set` and for
`compute_intersections_between_sets`: pruning pairs with disjoint
bounding extents never changes the recorded intersections. -/
theorem edgeSetIntersector_strategies_equivalent :
    ∀ (edges edges0 edges1 : List (List Coord)) (checkSelf : Bool),
      withinSetIndexed edges checkSelf = withinSetBrute edges checkSelf ∧
        betweenSetsIndexed edges0 edges1 = betweenSetsBrute edges0 edges1 := by
  intro edges edges0 edges1 checkSelf
  exact ⟨filter_overlap_absorb _, filter_overlap_absorb _⟩

theorem segRefsOf_edgeIdx (i : ℕ) (e : List Coord) (r : SegRef)
    (h : r ∈ segRefsOf i e) : r.edgeIdx = i := by
  simp only [segRefsOf, List.mem_map, List.mem_range] at h
  obtain ⟨j, _, rfl⟩ := h
  rfl

theorem mem_testedWithin (edges : List (List Coord)) (checkSelf : Bool)
    (rr : SegRef × SegRef) (h : rr ∈ testedWithin edges checkSelf) :
    (checkSelf = true ∨ rr.1.edgeIdx ≠ rr.2.edgeIdx) ∧
      ¬(rr.1.edgeIdx = rr.2.edgeIdx ∧ rr.1.segIdx = rr.2.segIdx) := by
  simp only [testedWithin, List.mem_flatMap, List.mem_range] at h
  obtain ⟨i0, _, i1, _, h⟩ := h
  by_cases hc : checkSelf = true ∨ i0 ≠ i1
  · rw [if_pos hc] at h
    simp only [List.mem_flatMap, List.mem_filterMap] at h
    obtain ⟨r0, hr0, r1, hr1, hsome⟩ := h
    by_cases hs : i0 = i1 ∧ r0.segIdx = r1.segIdx
    · rw [if_pos hs] at hsome
      cases hsome
    · rw [if_neg hs] at hsome
      cases hsome
      have e0 : r0.edgeIdx = i0 := segRefsOf_edgeIdx _ _ _ hr0
      have e1 : r1.edgeIdx = i1 := segRefsOf_edgeIdx _ _ _ hr1
      constructor
      · rcases hc with hc | hc
        · exact Or.inl hc
        · exact Or.inr (by simp [e0, e1, hc])
      · intro ⟨he, hj⟩
        exact hs ⟨by rw [← e0, ← e1, he], hj⟩
  · rw [if_neg hc] at h
    cases h

/-- C2: For every edge set handed to `compute_intersections_within_set`
with the self-check flag false, no two segments of the same edge are
tested against each other; and under any flag value a segment is never
tested against itself. -/
theorem withinSet_no_self_pairs :
    ∀ edges : List (List Coord),
      (∀ rr ∈ testedWithin edges false, rr.1.edgeIdx ≠ rr.2.edgeIdx) ∧
        (∀ (checkSelf : Bool), ∀ rr ∈ testedWithin edges checkSelf,
          ¬(rr.1.edgeIdx = rr.2.edgeIdx ∧ rr.1.segIdx = rr.2.segIdx)) := by
  intro edges
  constructor
  · intro rr h
    rcases (mem_testedWithin edges false rr h).1 with hc | hc
    · cases hc
    · exact hc
  · intro checkSelf rr h
    exact (mem_testedWithin edges checkSelf rr h).2

/-- Topological location of a graph element relative to one input
geometry. -/
inductive Location
  | interior
  | boundary
  | exterior
deriving DecidableEq, Repr

/-- A labeled graph element after the labeling pass: its location
relative to geometry A, its location relative to geometry B, and its
dimension (0 node, 1 edge, 2 area patch). -/
structure LabeledElement where
  locA : Location
  locB : Location
  dim : ℤ
deriving DecidableEq, Repr

/-- Modelled from the spec: IntersectionMatrix derivation (the matrix /
relate-driver code is not under src/).  Each cell holds the maximum
dimension of the labeled graph elements lying simultaneously in the
given class of A and class of B, or -1 when no element does. -/
def matrixOf (elems : List LabeledElement) (la lb : Location) : ℤ :=
  elems.foldr (fun e acc => if e.locA = la ∧ e.locB = lb then max e.dim acc else acc) (-1)

/-- Transpose of an intersection matrix. -/
def transposeIM (m : Location → Location → ℤ) : Location → Location → ℤ :=
  fun la lb => m lb la

/-- Exchanging the roles of the two geometries on a labeled element:
the element set produced by relate(B, A) is the element set of
relate(A, B) with the two label roles swapped, since every graph
element is labeled against each geometry independently. -/
def swapElement (e : LabeledElement) : LabeledElement :=
  ⟨e.locB, e.locA, e.dim⟩

theorem matrixOf_map_swap (elems : List LabeledElement) (la lb : Location) :
    matrixOf (elems.map swapElement) la lb = matrixOf elems lb la := by
  induction elems with
  | nil => rfl
  | cons e rest ih =>
    simp only [matrixOf] at ih
    simp only [List.map_cons, matrixOf, List.foldr_cons, swapElement]
    rw [ih]
    by_cases h : e.locB = la ∧ e.locA = lb
    · rw [if_pos ⟨h.1, h.2⟩, if_pos ⟨h.2, h.1⟩]
    · rw [if_neg h, if_neg (fun hc => h ⟨hc.2, hc.1⟩)]

/-- C3: relate(A, B) equals the transpose of relate(B, A).  The labeled
element set of relate(B, A) is that of relate(A, B) with the two label
roles exchanged, and deriving the matrix from the swapped elements
yields exactly the transposed matrix. -/
theorem relate_symmetric_transpose :
    ∀ elems : List LabeledElement,
      matrixOf (elems.map swapElement) = transposeIM (matrixOf elems) := by
  intro elems
  funext la lb
  exact matrixOf_map_swap elems la lb

/-- The error taxonomy of the engine. -/
inductive RelateError
  | invalidGeometry
  | topologyInconsistency
deriving DecidableEq, Repr

/-- A graph element as it leaves the labeling pass: a location may still
be Unknown (`none`) if the pass failed to resolve it. -/
structure RawElement where
  locA : Option Location
  locB : Option Location
  dim : ℤ
deriving DecidableEq, Repr

/-- Resolve a raw element into a fully labeled one; fails on Unknown. -/
def resolveElement (e : RawElement) : Option LabeledElement :=
  match e.locA, e.locB with
  | some a, some b => some ⟨a, b, e.dim⟩
  | _, _ => none

/-- A raw element still carries an Unknown location. -/
def hasUnknown (e : RawElement) : Bool :=
  !e.locA.isSome || !e.locB.isSome

/-- Modelled from the spec: matrix derivation guarded by the topology
consistency check (the labeling / relate-driver code is not under
src/).  If any location is still Unknown after the labeling pass the
engine fails with `TopologyInconsistency` instead of silently
defaulting; otherwise the matrix is derived from the resolved
elements. -/
def deriveMatrix (elems : List RawElement) :
    Except RelateError (Location → Location → ℤ) :=
  if elems.any hasUnknown then .error .topologyInconsistency
  else .ok (matrixOf (elems.filterMap resolveElement))

/-- C8: If the labeling pass leaves some location Unknown, the engine
fails with `TopologyInconsistency`, an error distinct from
`InvalidGeometry`, rather than silently defaulting; and whenever matrix
derivation does produce a matrix, no element carried an Unknown
location. -/
theorem unknown_label_topology_error :
    ∀ elems : List RawElement,
      ((∃ e ∈ elems, e.locA = none ∨ e.locB = none) →
        deriveMatrix elems = .error .topologyInconsistency ∧
          RelateError.topologyInconsistency ≠ RelateError.invalidGeometry) ∧
        (∀ m, deriveMatrix elems = .ok m →
          ∀ e ∈ elems, e.locA ≠ none ∧ e.locB ≠ none) := by
  intro elems
  constructor
  · intro ⟨e, he, hu⟩
    have hany : elems.any hasUnknown = true := by
      rw [List.any_eq_true]
      refine ⟨e, he, ?_⟩
      unfold hasUnknown
      rcases hu with hu | hu <;> simp [hu]
    constructor
    · unfold deriveMatrix
      rw [if_pos hany]
    · intro hc
      cases hc
  · intro m hm e he
    unfold deriveMatrix at hm
    by_cases hany : elems.any hasUnknown = true
    · rw [if_pos hany] at hm
      cases hm
    · rw [if_neg hany] at hm
      rw [List.any_eq_true] at hany
      push_neg at hany
      have := hany e he
      unfold hasUnknown at this
      constructor
      · intro hc
        simp [hc] at this
      · intro hc
        simp [hc] at this

theorem unknown_label_topology_error_witness :
    (∃ e ∈ [(⟨none, some Location.interior, 0⟩ : RawElement)],
        e.locA = none ∨ e.locB = none) ∧
      deriveMatrix [(⟨none, some Location.interior, 0⟩ : RawElement)] =
        .error .topologyInconsistency :=
  ⟨⟨⟨none, some Location.interior, 0⟩, by simp⟩,
    (((unknown_label_topology_error
        [(⟨none, some Location.interior, 0⟩ : RawElement)]).1
      ⟨⟨none, some Location.interior, 0⟩, by simp⟩).1)⟩

/-- A floating-point coordinate component as far as validation is
concerned: either a finite value (embedded exactly) or one of the
non-finite IEEE values the engine must reject. -/
inductive FloatVal
  | finite (q : ℚ)
  | nan
  | posInf
  | negInf
deriving DecidableEq, Repr

/-- Whether a component is a finite number. -/
def FloatVal.isFiniteVal : FloatVal → Bool
  | .finite _ => true
  | _ => false

/-- An input coordinate, with possibly non-finite components. -/
structure FCoord where
  x : FloatVal
  y : FloatVal
deriving DecidableEq, Repr

/-- An input geometry in one of the supported variants relevant to
validation: a point, a linestring, or a polygon given by its shell ring
and hole rings. -/
inductive Geometry
  | point (c : FCoord)
  | lineString (cs : List FCoord)
  | polygon (shell : List FCoord) (holes : List (List FCoord))
deriving DecidableEq, Repr

/-- All coordinates of a geometry. -/
def coordsOf : Geometry → List FCoord
  | .point c => [c]
  | .lineString cs => cs
  | .polygon shell holes => shell ++ holes.flatten

/-- All linear rings of a geometry. -/
def ringsOf : Geometry → List (List FCoord)
  | .point _ => []
  | .lineString _ => []
  | .polygon shell holes => shell :: holes

/-- A zero-length (degenerate) linear ring: every coordinate equals the
first, so the ring bounds no length at all. -/
def ringZeroLength : List FCoord → Bool
  | [] => true
  | c :: rest => rest.all (· = c)

/-- The geometry contains a NaN or infinite coordinate component. -/
def hasNonFiniteCoord (g : Geometry) : Bool :=
  !(coordsOf g).all fun c => c.x.isFiniteVal && c.y.isFiniteVal

/-- The geometry contains a degenerate (zero-length) linear ring. -/
def hasDegenerateRing (g : Geometry) : Bool :=
  (ringsOf g).any ringZeroLength

/-- Modelled from the spec: input validation performed before graph
construction (the relate-driver code is not under src/).  Malformed
input - a NaN or infinite coordinate, or a degenerate ring - is
rejected with `InvalidGeometry`. -/
def validate (g : Geometry) : Except RelateError Unit :=
  if hasNonFiniteCoord g || hasDegenerateRing g then .error .invalidGeometry
  else .ok ()

/-- Modelled from the spec: the relate pipeline - validate both inputs,
then build and label the graphs (abstracted as the `build` argument,
which yields the labeled elements), then derive the matrix.  Validation
precedes graph construction, and an error return carries no matrix. -/
def relatePipeline (build : Geometry → Geometry → List RawElement)
    (g1 g2 : Geometry) : Except RelateError (Location → Location → ℤ) := do
  _ ← validate g1
  _ ← validate g2
  deriveMatrix (build g1 g2)

/-- C5: For every input geometry with a NaN or infinite coordinate or a
degenerate (zero-length) linear ring, and whatever graph construction
would have produced, the engine reports `InvalidGeometry` to the
caller: the pipeline returns the error and no partial
IntersectionMatrix is ever produced. -/
theorem invalid_input_rejected_before_construction :
    ∀ (build : Geometry → Geometry → List RawElement) (g1 g2 : Geometry),
      (hasNonFiniteCoord g1 = true ∨ hasDegenerateRing g1 = true ∨
        hasNonFiniteCoord g2 = true ∨ hasDegenerateRing g2 = true) →
      relatePipeline build g1 g2 = .error .invalidGeometry ∧
        ∀ m, relatePipeline build g1 g2 ≠ .ok m := by
  intro build g1 g2 h
  have hmain : relatePipeline build g1 g2 = .error .invalidGeometry := by
    unfold relatePipeline validate
    rcases h with h | h | h | h
    · rw [if_pos (by simp [h])]
      rfl
    · rw [if_pos (by simp [h])]
      rfl
    all_goals by_cases h1 : hasNonFiniteCoord g1 || hasDegenerateRing g1
    · rw [if_pos h1]; rfl
    · rw [if_neg h1, if_pos (by simp [h])]; rfl
    · rw [if_pos h1]; rfl
    · rw [if_neg h1, if_pos (by simp [h])]; rfl
  refine ⟨hmain, ?_⟩
  intro m hc
  rw [hmain] at hc
  cases hc

theorem invalid_input_rejected_witness :
    (hasNonFiniteCoord (Geometry.point ⟨FloatVal.nan, FloatVal.finite 0⟩) = true ∨
      hasDegenerateRing (Geometry.point ⟨FloatVal.nan, FloatVal.finite 0⟩) = true ∨
      hasNonFiniteCoord (Geometry.point ⟨FloatVal.finite 0, FloatVal.finite 0⟩) = true ∨
      hasDegenerateRing (Geometry.point ⟨FloatVal.finite 0, FloatVal.finite 0⟩) = true) ∧
    relatePipeline (fun _ _ => [])
        (Geometry.point ⟨FloatVal.nan, FloatVal.finite 0⟩)
        (Geometry.point ⟨FloatVal.finite 0, FloatVal.finite 0⟩) =
      .error .invalidGeometry :=
  ⟨Or.inl (by rfl),
    (invalid_input_rejected_before_construction (fun _ _ => [])
      (Geometry.point ⟨FloatVal.nan, FloatVal.finite 0⟩)
      (Geometry.point ⟨FloatVal.finite 0, FloatVal.finite 0⟩)
      (Or.inl (by rfl))).1⟩

/-- The result quadruple of the inverse geodesic problem as produced by
the external geographiclib oracle: geodesic distance in meters, forward
azimuth at the first point, forward azimuth at the second point, and
arc length.  -/
structure InverseResult where
  s12 : ℚ
  azi1 : ℚ
  azi2 : ℚ
  a12 : ℚ
deriving DecidableEq, Repr

/-- Modelled from the spec: the opaque geodesic oracle (geographiclib's
WGS84 inverse geodesic computation; the crate is external to the
repository).  `inverse lat1 lon1 lat2 lon2` returns, per the spec's
interface contract, the geodesic distance in meters and the forward
azimuth in degrees with 0 degrees = North and 90 degrees = East. -/
structure GeodesicOracle where
  inverse : ℚ → ℚ → ℚ → ℚ → InverseResult

/-- A point as used by the geodesic convenience methods: x is the
longitude coordinate and y the latitude coordinate. -/
structure GeoPoint where
  x : ℚ
  y : ℚ
deriving DecidableEq, Repr

/-- Embedding of `GeodesicBearing::bearing` for `Point<f64>`: the first
component (forward azimuth at the first point) of the WGS84 inverse
computation applied to (self.y, self.x, rhs.y, rhs.x). -/
def bearing (G : GeodesicOracle) (p rhs : GeoPoint) : ℚ :=
  (G.inverse p.y p.x rhs.y rhs.x).azi1

/-- Embedding of `GeodesicBearing::bearing_distance` for `Point<f64>`:
the (azi1, distance) pair extracted from the same WGS84 inverse
computation on the same arguments. -/
def bearing_distance (G : GeodesicOracle) (p rhs : GeoPoint) : ℚ × ℚ :=
  let r := G.inverse p.y p.x rhs.y rhs.x
  (r.azi1, r.s12)

/-- The forward azimuth of the oracle between two points, in degrees
with 0 = North, 90 = East per the oracle's contract: the azi1 component
of the inverse problem solved on the latitudes and longitudes of the
two points in order. -/
def oracleForwardAzimuth (G : GeodesicOracle) (p q : GeoPoint) : ℚ :=
  (G.inverse p.y p.x q.y q.x).azi1

/-- The geodesic distance in meters between two points per the oracle's
contract. -/
def oracleDistanceMeters (G : GeodesicOracle) (p q : GeoPoint) : ℚ :=
  (G.inverse p.y p.x q.y q.x).s12

/-- C6: For every pair of points, `bearing` returns precisely the
oracle's forward azimuth (degrees, 0 = North, 90 = East) between the
two points, and `bearing_distance` returns the pair of that same
azimuth and the geodesic distance in meters, in that order. -/
theorem geodesic_bearing_convention :
    ∀ (G : GeodesicOracle) (p q : GeoPoint),
      bearing G p q = oracleForwardAzimuth G p q ∧
        bearing_distance G p q = (oracleForwardAzimuth G p q, oracleDistanceMeters G p q) := by
  intro G p q
  exact ⟨rfl, rfl⟩

/-- C10: For every pair of points, the first component of
`bearing_distance` equals `bearing`: both extract the azi1 component of
the same WGS84 inverse computation applied to the same arguments. -/
theorem bearing_distance_fst_eq_bearing :
    ∀ (G : GeodesicOracle) (p q : GeoPoint),
      (bearing_distance G p q).1 = bearing G p q := by
  intro G p q
  rfl

/-- A split position along an edge: the index of the originating
segment and the parametric distance along that segment.  The Edge keeps
its recorded intersection list sorted by this (segment index, distance)
key; a position coinciding with a vertex is normalized to parameter 0
on the following segment. -/
@[ext]
structure SplitPos where
  seg : ℕ
  t : ℚ
deriving DecidableEq, Repr

/-- Order of split positions along the edge: primary key the
originating segment index, secondary key the parametric distance. -/
def SplitPos.le (p q : SplitPos) : Prop :=
  p.seg < q.seg ∨ (p.seg = q.seg ∧ p.t ≤ q.t)

/-- Strict order of split positions along the edge. -/
def SplitPos.lt (p q : SplitPos) : Prop :=
  p.seg < q.seg ∨ (p.seg = q.seg ∧ p.t < q.t)

instance (p q : SplitPos) : Decidable (SplitPos.le p q) := by
  unfold SplitPos.le; infer_instance

instance (p q : SplitPos) : Decidable (SplitPos.lt p q) := by
  unfold SplitPos.lt; infer_instance

theorem SplitPos.leRefl (p : SplitPos) : SplitPos.le p p :=
  Or.inr ⟨rfl, le_refl p.t⟩

theorem SplitPos.leTrans {p q r : SplitPos} (h1 : SplitPos.le p q)
    (h2 : SplitPos.le q r) : SplitPos.le p r := by
  rcases h1 with h1 | ⟨h1, h1t⟩ <;> rcases h2 with h2 | ⟨h2, h2t⟩
  · exact Or.inl (Nat.lt_trans h1 h2)
  · exact Or.inl (h2 ▸ h1)
  · exact Or.inl (h1 ▸ h2)
  · exact Or.inr ⟨h1.trans h2, h1t.trans h2t⟩

theorem SplitPos.ltTrans {p q r : SplitPos} (h1 : SplitPos.lt p q)
    (h2 : SplitPos.lt q r) : SplitPos.lt p r := by
  rcases h1 with h1 | ⟨h1, h1t⟩ <;> rcases h2 with h2 | ⟨h2, h2t⟩
  · exact Or.inl (Nat.lt_trans h1 h2)
  · exact Or.inl (h2 ▸ h1)
  · exact Or.inl (h1 ▸ h2)
  · exact Or.inr ⟨h1.trans h2, h1t.trans h2t⟩

theorem SplitPos.leOfLt {p q : SplitPos} (h : SplitPos.lt p q) : SplitPos.le p q := by
  rcases h with h | ⟨h, ht⟩
  · exact Or.inl h
  · exact Or.inr ⟨h, ht.le⟩

theorem SplitPos.ltIrrefl (p : SplitPos) : ¬SplitPos.lt p p := by
  intro h
  rcases h with h | ⟨_, h⟩
  · exact Nat.lt_irrefl _ h
  · exact h.false

theorem SplitPos.ltOfLeOfNe {p q : SplitPos} (h : SplitPos.le p q)
    (hne : p ≠ q) : SplitPos.lt p q := by
  rcases h with h | ⟨h, ht⟩
  · exact Or.inl h
  · refine Or.inr ⟨h, ht.lt_of_ne ?_⟩
    intro hc
    exact hne (SplitPos.ext h hc)

theorem SplitPos.leAntisymm {p q : SplitPos} (h1 : SplitPos.le p q)
    (h2 : SplitPos.le q p) : p = q := by
  rcases h1 with h1 | ⟨h1, h1t⟩ <;> rcases h2 with h2 | ⟨h2, h2t⟩
  · omega
  · omega
  · omega
  · exact SplitPos.ext h1 (h1t.antisymm h2t)

theorem SplitPos.leTotal (p q : SplitPos) : SplitPos.le p q ∨ SplitPos.le q p := by
  rcases Nat.lt_trichotomy p.seg q.seg with h | h | h
  · exact Or.inl (Or.inl h)
  · rcases le_total p.t q.t with ht | ht
    · exact Or.inl (Or.inr ⟨h, ht⟩)
    · exact Or.inr (Or.inr ⟨h.symm, ht⟩)
  · exact Or.inr (Or.inl h)

instance : IsTrans SplitPos SplitPos.le := ⟨fun _ _ _ => SplitPos.leTrans⟩

instance : IsTrans SplitPos SplitPos.lt := ⟨fun _ _ _ => SplitPos.ltTrans⟩

/-- A split position is valid on an edge of n coordinates: either it
lies on a real segment with parameter in [0, 1) (a position with
parameter 1 is normalized to the next segment), or it is the final
endpoint of the edge. -/
def validPos (n : ℕ) (p : SplitPos) : Prop :=
  (p.seg + 1 < n ∧ 0 ≤ p.t ∧ p.t < 1) ∨ (p.seg + 1 = n ∧ p.t = 0)

instance (n : ℕ) (p : SplitPos) : Decidable (validPos n p) := by
  unfold validPos; infer_instance

theorem validPos_t_nonneg {n : ℕ} {p : SplitPos} (h : validPos n p) : 0 ≤ p.t := by
  rcases h with ⟨_, h, _⟩ | ⟨_, h⟩
  · exact h
  · rw [h]

/-- The coordinate of a split position along the edge coords. -/
def posCoord (coords : List Coord) (p : SplitPos) : Coord :=
  interp (coords.getD p.seg default) (coords.getD (p.seg + 1) default) p.t

theorem posCoord_vertex (coords : List Coord) (i : ℕ) :
    posCoord coords ⟨i, 0⟩ = coords.getD i default :=
  interp_zero _ _

/-- The run of k vertex positions starting at vertex s. -/
def vertexRun (s : ℕ) : ℕ → List SplitPos
  | 0 => []
  | k + 1 => ⟨s, 0⟩ :: vertexRun (s + 1) k

theorem mem_vertexRun : ∀ (k s : ℕ) (x : SplitPos), x ∈ vertexRun s k →
    x.t = 0 ∧ s ≤ x.seg ∧ x.seg < s + k
  | 0, s, x, h => absurd h (by simp [vertexRun])
  | k + 1, s, x, h => by
    rw [vertexRun, List.mem_cons] at h
    rcases h with rfl | h
    · refine ⟨rfl, ?_, ?_⟩
      · show s ≤ s
        omega
      · show s < s + (k + 1)
        omega
    · obtain ⟨h1, h2, h3⟩ := mem_vertexRun k (s + 1) x h
      exact ⟨h1, by omega, by omega⟩

theorem vertex_mem_vertexRun : ∀ (k s i : ℕ), s ≤ i → i < s + k →
    (⟨i, 0⟩ : SplitPos) ∈ vertexRun s k
  | 0, s, i, h1, h2 => by omega
  | k + 1, s, i, h1, h2 => by
    rw [vertexRun, List.mem_cons]
    by_cases hi : i = s
    · exact Or.inl (by rw [hi])
    · exact Or.inr (vertex_mem_vertexRun k (s + 1) i (by omega) (by omega))

/-- Remove consecutive duplicates: "merging consecutive duplicate split
points into one". -/
def dedupC {α : Type} [DecidableEq α] : List α → List α
  | [] => []
  | [a] => [a]
  | a :: b :: rest => if a = b then dedupC (b :: rest) else a :: dedupC (b :: rest)

theorem dedupC_head {α : Type} [DecidableEq α] :
    ∀ (l : List α) (a : α), (dedupC (a :: l)).head? = some a
  | [], a => rfl
  | b :: rest, a => by
    show (if a = b then dedupC (b :: rest) else a :: dedupC (b :: rest)).head? = some a
    by_cases hab : a = b
    · rw [if_pos hab]
      subst hab
      exact dedupC_head rest a
    · rw [if_neg hab]
      rfl

theorem dedupC_ne_nil {α : Type} [DecidableEq α] (l : List α) (a : α) :
    dedupC (a :: l) ≠ [] := by
  intro hc
  have := dedupC_head l a
  rw [hc] at this
  cases this

theorem dedupC_getLast? {α : Type} [DecidableEq α] :
    ∀ (l : List α), (dedupC l).getLast? = l.getLast?
  | [] => rfl
  | [a] => rfl
  | a :: b :: rest => by
    show (if a = b then dedupC (b :: rest) else a :: dedupC (b :: rest)).getLast? = _
    rw [List.getLast?_cons_cons]
    by_cases hab : a = b
    · rw [if_pos hab, dedupC_getLast? (b :: rest)]
    · rw [if_neg hab]
      obtain ⟨c, l', hcl⟩ := List.exists_cons_of_ne_nil (dedupC_ne_nil rest b)
      rw [hcl, List.getLast?_cons_cons, ← hcl, dedupC_getLast? (b :: rest)]

theorem dedupC_subset {α : Type} [DecidableEq α] :
    ∀ (l : List α) (x : α), x ∈ dedupC l → x ∈ l
  | [], x, h => h
  | [a], x, h => h
  | a :: b :: rest, x, h => by
    rw [show dedupC (a :: b :: rest) =
      if a = b then dedupC (b :: rest) else a :: dedupC (b :: rest) from rfl] at h
    by_cases hab : a = b
    · rw [if_pos hab] at h
      exact List.mem_cons_of_mem a (dedupC_subset (b :: rest) x h)
    · rw [if_neg hab, List.mem_cons] at h
      rcases h with rfl | h
      · exact List.mem_cons_self _ _
      · exact List.mem_cons_of_mem a (dedupC_subset (b :: rest) x h)

theorem dedupC_const {α : Type} [DecidableEq α] :
    ∀ (l : List α) (a : α), (∀ x ∈ l, x = a) → dedupC (a :: l) = [a]
  | [], a, _ => rfl
  | b :: rest, a, h => by
    have hb : b = a := h b (List.mem_cons_self _ _)
    subst hb
    show (if b = b then dedupC (b :: rest) else b :: dedupC (b :: rest)) = [b]
    rw [if_pos rfl]
    exact dedupC_const rest b fun x hx => h x (List.mem_cons_of_mem b hx)

theorem dedupC_chain' : ∀ (l : List SplitPos), List.Chain' SplitPos.le l →
    List.Chain' SplitPos.lt (dedupC l)
  | [], _ => by simp [dedupC]
  | [a], _ => by simp [dedupC]
  | a :: b :: rest, h => by
    rw [List.chain'_cons] at h
    show List.Chain' SplitPos.lt
      (if a = b then dedupC (b :: rest) else a :: dedupC (b :: rest))
    by_cases hab : a = b
    · rw [if_pos hab]
      exact dedupC_chain' (b :: rest) h.2
    · rw [if_neg hab, List.chain'_cons']
      refine ⟨?_, dedupC_chain' (b :: rest) h.2⟩
      intro y hy
      rw [dedupC_head rest b, Option.mem_some_iff] at hy
      subst hy
      exact SplitPos.ltOfLeOfNe h.1 hab

/-- The number of original vertices lying strictly between the split
positions p and q along the edge. -/
def innerVertexCount (p q : SplitPos) : ℕ :=
  (if 0 < q.t then q.seg + 1 else q.seg) - (p.seg + 1)

/-- The original vertices lying strictly between p and q, in order. -/
def innerVertices (p q : SplitPos) : List SplitPos :=
  vertexRun (p.seg + 1) (innerVertexCount p q)

/-- The positions making up the sub-edge between the consecutive split
positions p and q: p itself, the original vertices strictly between,
then q. -/
def subEdgePos (p q : SplitPos) : List SplitPos :=
  p :: (innerVertices p q ++ [q])

/-- Modelled from the spec: the split-point list of the noder for one
edge of n coordinates - the edge's two endpoints are added to the
recorded (sorted) intersection list, and consecutive duplicate split
points are merged into one. -/
def splitsOf (n : ℕ) (ints : List SplitPos) : List SplitPos :=
  dedupC ((⟨0, 0⟩ :: ints) ++ [⟨n - 1, 0⟩])

/-- The sub-edges (at the position level) between consecutive split
points of the list s. -/
def splitPairsEdges (s : List SplitPos) : List (List SplitPos) :=
  (s.zip s.tail).map fun pq => subEdgePos pq.1 pq.2

/-- The noder split of one edge of n coordinates at the recorded
positions, at the position level. -/
def noderSplitPos (n : ℕ) (ints : List SplitPos) : List (List SplitPos) :=
  splitPairsEdges (splitsOf n ints)

/-- Modelled from the spec: the noder - split the edge at every
recorded intersection position, in order along the edge (positions
sorted by segment index then distance, duplicates merged), producing
the ordered sequence of sub-edges. -/
def noderSplit (coords : List Coord) (ints : List SplitPos) : List (List Coord) :=
  (noderSplitPos coords.length ints).map (List.map (posCoord coords))

/-- Glue concatenation of the ordered sub-edges: consecutive sub-edges
share their endpoint, which is counted once. -/
def glueConcat {α : Type} : List (List α) → List α
  | [] => []
  | [e] => e
  | e :: e2 :: rest => e.dropLast ++ glueConcat (e2 :: rest)

/-- Two split positions in adjacent relative placement along the edge:
v follows u either on the same segment or as the vertex starting the
next segment.  Consecutive positions of a sub-edge are always in this
relation. -/
def adjStep (u v : SplitPos) : Prop :=
  SplitPos.lt u v ∧ (v.seg = u.seg ∨ (v.seg = u.seg + 1 ∧ v.t = 0))

theorem subEdgePos_head (p q : SplitPos) : (subEdgePos p q).head? = some p := rfl

theorem subEdgePos_getLast (p q : SplitPos) : (subEdgePos p q).getLast? = some q := by
  unfold subEdgePos
  rw [← List.cons_append, List.getLast?_concat]

theorem subEdgePos_dropLast (p q : SplitPos) :
    (subEdgePos p q).dropLast = p :: innerVertices p q := by
  unfold subEdgePos
  rw [← List.cons_append, List.dropLast_concat]

theorem subEdgePos_length (p q : SplitPos) : 2 ≤ (subEdgePos p q).length := by
  unfold subEdgePos
  simp only [List.length_cons, List.length_append, List.length_singleton]
  omega

theorem mem_subEdgePos {p q x : SplitPos} (h : x ∈ subEdgePos p q) :
    x = p ∨ x = q ∨ (x.t = 0 ∧ p.seg + 1 ≤ x.seg ∧
      x.seg < p.seg + 1 + innerVertexCount p q) := by
  unfold subEdgePos at h
  rw [List.mem_cons, List.mem_append, List.mem_singleton] at h
  rcases h with rfl | h | rfl
  · exact Or.inl rfl
  · exact Or.inr (Or.inr (mem_vertexRun _ _ _ h))
  · exact Or.inr (Or.inl rfl)

theorem subEdgePos_between {p q x : SplitPos} (hpq : SplitPos.lt p q)
    (hq0 : 0 ≤ q.t) (h : x ∈ subEdgePos p q) :
    SplitPos.le p x ∧ SplitPos.le x q := by
  rcases mem_subEdgePos h with rfl | rfl | ⟨ht, h1, h2⟩
  · exact ⟨SplitPos.leRefl x, SplitPos.leOfLt hpq⟩
  · exact ⟨SplitPos.leOfLt hpq, SplitPos.leRefl x⟩
  · refine ⟨Or.inl (by omega), ?_⟩
    unfold innerVertexCount at h2
    by_cases hqt : 0 < q.t
    · rw [if_pos hqt] at h2
      rcases Nat.lt_or_ge x.seg q.seg with hlt | hge
      · exact Or.inl hlt
      · refine Or.inr ⟨by omega, ?_⟩
        rw [ht]
        exact hq0
    · rw [if_neg hqt] at h2
      exact Or.inl (by omega)

theorem vertex_mem_innerVertices {p q : SplitPos} (i : ℕ) (hp0 : 0 ≤ p.t)
    (h1 : SplitPos.lt p ⟨i, 0⟩) (h2 : SplitPos.lt ⟨i, 0⟩ q) :
    (⟨i, 0⟩ : SplitPos) ∈ innerVertices p q := by
  have hps : p.seg < i := by
    rcases h1 with h | ⟨h, ht⟩
    · exact h
    · exfalso
      exact absurd (lt_of_le_of_lt hp0 ht) (lt_irrefl 0)
  have hiq : i < q.seg ∨ (i = q.seg ∧ 0 < q.t) := by
    rcases h2 with h | ⟨h, ht⟩
    · exact Or.inl h
    · exact Or.inr ⟨h, ht⟩
  apply vertex_mem_vertexRun
  · omega
  · unfold innerVertexCount
    by_cases hqt : 0 < q.t
    · rw [if_pos hqt]
      omega
    · rw [if_neg hqt]
      rcases hiq with h | ⟨_, h⟩
      · omega
      · exact absurd h hqt

theorem validPos_vertex {N i : ℕ} (h : i + 1 ≤ N) : validPos N ⟨i, 0⟩ := by
  rcases Nat.lt_or_ge (i + 1) N with h1 | h1
  · exact Or.inl ⟨h1, le_refl 0, by norm_num⟩
  · refine Or.inr ⟨?_, rfl⟩
    show i + 1 = N
    omega

theorem vertexRun_head (k s : ℕ) (h : 0 < k) :
    (vertexRun s k).head? = some ⟨s, 0⟩ := by
  cases k with
  | zero => omega
  | succ m => rfl

theorem vertexRun_getLast : ∀ (k s : ℕ), 0 < k →
    (vertexRun s k).getLast? = some ⟨s + k - 1, 0⟩
  | 0, s, h => absurd h (by omega)
  | 1, s, _ => by
    show ([⟨s, 0⟩] : List SplitPos).getLast? = _
    simp
  | k + 2, s, _ => by
    have ih := vertexRun_getLast (k + 1) (s + 1) (by omega)
    rw [show vertexRun s (k + 2) = ⟨s, 0⟩ :: vertexRun (s + 1) (k + 1) from rfl]
    rw [show vertexRun (s + 1) (k + 1) = ⟨s + 1, 0⟩ :: vertexRun (s + 2) k from rfl] at ih ⊢
    rw [List.getLast?_cons_cons, ih, Option.some.injEq, SplitPos.mk.injEq]
    exact ⟨by omega, rfl⟩

theorem chain'_vertexRun {N : ℕ} : ∀ (k s : ℕ), s + k ≤ N →
    List.Chain' (fun u v => validPos N u ∧ validPos N v ∧ adjStep u v) (vertexRun s k)
  | 0, s, _ => by simp [vertexRun]
  | 1, s, _ => by simp [vertexRun]
  | k + 2, s, h => by
    rw [show vertexRun s (k + 2) = ⟨s, 0⟩ :: vertexRun (s + 1) (k + 1) from rfl,
      List.chain'_cons']
    refine ⟨?_, chain'_vertexRun (k + 1) (s + 1) (by omega)⟩
    intro y hy
    rw [vertexRun_head (k + 1) (s + 1) (by omega), Option.mem_some_iff] at hy
    subst hy
    exact ⟨validPos_vertex (by omega), validPos_vertex (by omega),
      Or.inl (Nat.lt_succ_self s), Or.inr ⟨rfl, rfl⟩⟩

theorem chain'_subEdgePos {N : ℕ} {p q : SplitPos} (hp : validPos N p)
    (hq : validPos N q) (hpq : SplitPos.lt p q) :
    List.Chain' (fun u v => validPos N u ∧ validPos N v ∧ adjStep u v) (subEdgePos p q) := by
  have hpN : p.seg + 1 ≤ N := by
    rcases hp with ⟨h, _⟩ | ⟨h, _⟩ <;> omega
  have hqN : q.seg + 1 ≤ N := by
    rcases hq with ⟨h, _⟩ | ⟨h, _⟩ <;> omega
  have hp0 : 0 ≤ p.t := validPos_t_nonneg hp
  have hq0 : 0 ≤ q.t := validPos_t_nonneg hq
  have hboundN : (if 0 < q.t then q.seg + 1 else q.seg) ≤ N := by
    by_cases hqt : 0 < q.t
    · rw [if_pos hqt]
      exact hqN
    · rw [if_neg hqt]
      omega
  unfold subEdgePos
  rw [← List.cons_append, List.chain'_append]
  refine ⟨?_, List.chain'_singleton _, ?_⟩
  · rw [List.chain'_cons']
    constructor
    · intro y hy
      unfold innerVertices at hy
      cases hk : innerVertexCount p q with
      | zero =>
        rw [hk] at hy
        simp [vertexRun] at hy
      | succ m =>
        rw [hk, vertexRun_head (m + 1) (p.seg + 1) (by omega), Option.mem_some_iff] at hy
        subst hy
        have hbound : p.seg + 2 ≤ (if 0 < q.t then q.seg + 1 else q.seg) := by
          unfold innerVertexCount at hk
          omega
        exact ⟨hp, validPos_vertex (by omega), Or.inl (Nat.lt_succ_self _), Or.inr ⟨rfl, rfl⟩⟩
    · unfold innerVertices
      apply chain'_vertexRun
      unfold innerVertexCount
      omega
  · intro x hx y hy
    rw [List.head?_cons, Option.mem_some_iff] at hy
    subst hy
    cases hk : innerVertexCount p q with
    | zero =>
      unfold innerVertices at hx
      rw [hk, show vertexRun (p.seg + 1) 0 = [] from rfl] at hx
      rw [show ([p] : List SplitPos).getLast? = some p from rfl, Option.mem_some_iff] at hx
      subst hx
      refine ⟨hp, hq, hpq, ?_⟩
      unfold innerVertexCount at hk
      by_cases hqt : 0 < q.t
      · rw [if_pos hqt] at hk
        left
        rcases hpq with h | ⟨h, _⟩
        · omega
        · omega
      · rw [if_neg hqt] at hk
        have hqt0 : q.t = 0 := le_antisymm (not_lt.mp hqt) hq0
        right
        rcases hpq with h | ⟨h, ht⟩
        · exact ⟨by omega, hqt0⟩
        · exfalso
          rw [hqt0] at ht
          exact absurd (lt_of_le_of_lt hp0 ht) (lt_irrefl 0)
    | succ m =>
      unfold innerVertices at hx
      rw [hk,
        show vertexRun (p.seg + 1) (m + 1) = ⟨p.seg + 1, 0⟩ :: vertexRun (p.seg + 2) m from rfl,
        List.getLast?_cons_cons,
        ← show vertexRun (p.seg + 1) (m + 1) = ⟨p.seg + 1, 0⟩ :: vertexRun (p.seg + 2) m from rfl,
        vertexRun_getLast (m + 1) (p.seg + 1) (by omega), Option.mem_some_iff] at hx
      subst hx
      have hbound : (if 0 < q.t then q.seg + 1 else q.seg) = p.seg + 1 + (m + 1) := by
        unfold innerVertexCount at hk
        omega
      by_cases hqt : 0 < q.t
      · rw [if_pos hqt] at hbound
        refine ⟨validPos_vertex ?_, hq, ?_, ?_⟩
        · omega
        · right
          constructor
          · show p.seg + 1 + (m + 1) - 1 = q.seg
            omega
          · exact hqt
        · left
          show q.seg = p.seg + 1 + (m + 1) - 1
          omega
      · rw [if_neg hqt] at hbound
        refine ⟨validPos_vertex ?_, hq, ?_, ?_⟩
        · omega
        · left
          show p.seg + 1 + (m + 1) - 1 < q.seg
          omega
        · right
          refine ⟨?_, le_antisymm (not_lt.mp hqt) hq0⟩
          show q.seg = p.seg + 1 + (m + 1) - 1 + 1
          omega

theorem interp_one (a b : Coord) : interp a b 1 = b := by
  unfold interp
  ext <;> ring

theorem interp_factor {a b : Coord} {t1 t2 : ℚ} (h : interp a b t1 = interp a b t2)
    (hne : t1 ≠ t2) : a = b := by
  unfold interp at h
  rw [Coord.mk.injEq] at h
  obtain ⟨hx, hy⟩ := h
  have hx' : (t1 - t2) * (b.x - a.x) = 0 := by linarith
  have hy' : (t1 - t2) * (b.y - a.y) = 0 := by linarith
  have ht : t1 - t2 ≠ 0 := sub_ne_zero.mpr hne
  ext
  · have := (mul_eq_zero.mp hx').resolve_left ht
    linarith [sub_eq_zero.mp this]
  · have := (mul_eq_zero.mp hy').resolve_left ht
    linarith [sub_eq_zero.mp this]

theorem chain_ne_getD {coords : List Coord}
    (hadj : List.Chain' (fun c1 c2 => c1 ≠ c2) coords) {i : ℕ}
    (h : i + 1 < coords.length) : coords.getD i default ≠ coords.getD (i + 1) default := by
  rw [List.chain'_iff_get] at hadj
  have hi : i < coords.length := by omega
  have := hadj i (by omega)
  rw [List.getD_eq_getElem?_getD, List.getD_eq_getElem?_getD,
    List.getElem?_eq_getElem hi, List.getElem?_eq_getElem h]
  simpa using this

theorem posCoord_adjacent_ne (coords : List Coord)
    (hadj : List.Chain' (fun c1 c2 => c1 ≠ c2) coords) {u v : SplitPos}
    (hu : validPos coords.length u) (hv : validPos coords.length v)
    (hstep : adjStep u v) : posCoord coords u ≠ posCoord coords v := by
  obtain ⟨hlt, hseg⟩ := hstep
  have hu0 : 0 ≤ u.t := validPos_t_nonneg hu
  rcases hseg with hs | ⟨hs, hvt⟩
  · -- same segment, u.t < v.t
    have hts : u.t < v.t := by
      rcases hlt with h | ⟨_, h⟩
      · omega
      · exact h
    have huI : u.seg + 1 < coords.length := by
      rcases hu with ⟨h, _⟩ | ⟨h, hut⟩
      · exact h
      · exfalso
        rcases hv with ⟨h2, hv1, _⟩ | ⟨h2, hvt2⟩
        · omega
        · rw [hut, hvt2] at hts
          exact absurd hts (lt_irrefl 0)
    intro hc
    unfold posCoord at hc
    rw [hs] at hc
    exact chain_ne_getD hadj huI (interp_factor hc (ne_of_lt hts))
  · -- v is the vertex starting the next segment
    have huI : u.seg + 1 < coords.length ∧ u.t < 1 := by
      rcases hu with ⟨h, _, h2⟩ | ⟨h, _⟩
      · exact ⟨h, h2⟩
      · exfalso
        rcases hv with ⟨h2, _, _⟩ | ⟨h2, _⟩ <;> omega
    have hvc : posCoord coords v = coords.getD (u.seg + 1) default := by
      unfold posCoord
      rw [hvt, hs]
      exact interp_zero _ _
    intro hc
    rw [hvc] at hc
    unfold posCoord at hc
    have hc1 : interp (coords.getD u.seg default) (coords.getD (u.seg + 1) default) u.t =
        interp (coords.getD u.seg default) (coords.getD (u.seg + 1) default) 1 := by
      rw [interp_one]
      exact hc
    exact chain_ne_getD hadj huI.1 (interp_factor hc1 (ne_of_lt huI.2))

theorem chain_ne_subEdge (coords : List Coord)
    (hadj : List.Chain' (fun c1 c2 => c1 ≠ c2) coords) {p q : SplitPos}
    (hp : validPos coords.length p) (hq : validPos coords.length q)
    (hpq : SplitPos.lt p q) :
    List.Chain' (fun c1 c2 => c1 ≠ c2) ((subEdgePos p q).map (posCoord coords)) := by
  rw [List.chain'_map]
  exact List.Chain'.imp
    (fun u v hr => posCoord_adjacent_ne coords hadj hr.1 hr.2.1 hr.2.2)
    (chain'_subEdgePos hp hq hpq)

theorem splitsOf_valid {n : ℕ} {ints : List SplitPos} (hn : 2 ≤ n)
    (hvalid : ∀ p ∈ ints, validPos n p) :
    ∀ x ∈ splitsOf n ints, validPos n x := by
  intro x hx
  have hx' := dedupC_subset _ x hx
  rw [List.mem_append, List.mem_cons, List.mem_singleton] at hx'
  rcases hx' with (rfl | hx') | rfl
  · exact validPos_vertex (by omega)
  · exact hvalid x hx'
  · exact validPos_vertex (by omega)

theorem chain_le_endpoints {n : ℕ} {ints : List SplitPos} (hn : 2 ≤ n)
    (hsorted : List.Chain' SplitPos.le ints)
    (hvalid : ∀ p ∈ ints, validPos n p) :
    List.Chain' SplitPos.le ((⟨0, 0⟩ :: ints) ++ [⟨n - 1, 0⟩]) := by
  rw [List.chain'_append]
  refine ⟨?_, List.chain'_singleton _, ?_⟩
  · rw [List.chain'_cons']
    refine ⟨?_, hsorted⟩
    intro y hy
    have hymem : y ∈ ints := by
      cases ints with
      | nil => simp at hy
      | cons a rest =>
        rw [List.head?_cons, Option.mem_some_iff] at hy
        subst hy
        exact List.mem_cons_self _ _
    have hyv := hvalid y hymem
    rcases Nat.eq_zero_or_pos y.seg with h0 | h0
    · exact Or.inr ⟨h0.symm, validPos_t_nonneg hyv⟩
    · exact Or.inl h0
  · intro x hx y hy
    rw [List.head?_cons, Option.mem_some_iff] at hy
    subst hy
    have hxmem : x ∈ ⟨0, 0⟩ :: ints := List.mem_of_mem_getLast? hx
    rw [List.mem_cons] at hxmem
    rcases hxmem with rfl | hxmem
    · exact Or.inl (by show 0 < n - 1; omega)
    · rcases hvalid x hxmem with ⟨h1, _, _⟩ | ⟨h1, h2⟩
      · exact Or.inl (by show x.seg < n - 1; omega)
      · refine Or.inr ⟨by show x.seg = n - 1; omega, ?_⟩
        rw [h2]

theorem splitsOf_chain_lt {n : ℕ} {ints : List SplitPos} (hn : 2 ≤ n)
    (hsorted : List.Chain' SplitPos.le ints)
    (hvalid : ∀ p ∈ ints, validPos n p) :
    List.Chain' SplitPos.lt (splitsOf n ints) :=
  dedupC_chain' _ (chain_le_endpoints hn hsorted hvalid)

theorem splitsOf_head (n : ℕ) (ints : List SplitPos) :
    (splitsOf n ints).head? = some ⟨0, 0⟩ := by
  unfold splitsOf
  rw [List.cons_append]
  exact dedupC_head _ _

theorem splitsOf_getLast (n : ℕ) (ints : List SplitPos) :
    (splitsOf n ints).getLast? = some ⟨n - 1, 0⟩ := by
  unfold splitsOf
  rw [dedupC_getLast?]
  exact List.getLast?_concat _

theorem glue_splitPairs_head : ∀ (s : List SplitPos) (b c : SplitPos),
    (glueConcat (splitPairsEdges (b :: c :: s))).head? = some b
  | [], b, c => subEdgePos_head b c
  | d :: s2, b, c => by
    show ((subEdgePos b c).dropLast ++
      glueConcat (splitPairsEdges (c :: d :: s2))).head? = some b
    rw [subEdgePos_dropLast, List.cons_append, List.head?_cons]

theorem glue_chain_lt {N : ℕ} : ∀ (s : List SplitPos) (a : SplitPos),
    List.Chain' SplitPos.lt (a :: s) →
    (∀ x ∈ a :: s, validPos N x) →
    List.Chain' SplitPos.lt (glueConcat (splitPairsEdges (a :: s)))
  | [], _, _, _ => by simp [splitPairsEdges, glueConcat]
  | [b], a, hch, hv => by
    show List.Chain' SplitPos.lt (subEdgePos a b)
    rw [List.chain'_cons] at hch
    exact List.Chain'.imp (fun u v hr => hr.2.2.1)
      (chain'_subEdgePos (hv a (by simp)) (hv b (by simp)) hch.1)
  | b :: c :: s2, a, hch, hv => by
    show List.Chain' SplitPos.lt
      ((subEdgePos a b).dropLast ++ glueConcat (splitPairsEdges (b :: c :: s2)))
    rw [List.chain'_append]
    rw [List.chain'_cons] at hch
    have hfull : List.Chain' (fun u v => validPos N u ∧ validPos N v ∧ adjStep u v)
        (subEdgePos a b) :=
      chain'_subEdgePos (hv a (by simp)) (hv b (by simp)) hch.1
    refine ⟨?_, glue_chain_lt (c :: s2) b hch.2
      (fun x hx => hv x (List.mem_cons_of_mem a hx)), ?_⟩
    · have hpre := List.dropLast_prefix (subEdgePos a b)
      exact List.Chain'.prefix (List.Chain'.imp (fun u v hr => hr.2.2.1) hfull) hpre
    · intro x hx y hy
      rw [glue_splitPairs_head, Option.mem_some_iff] at hy
      subst hy
      rw [show subEdgePos a b = (a :: innerVertices a b) ++ [b] from by
        unfold subEdgePos
        rw [List.cons_append], List.chain'_append] at hfull
      have hlink := hfull.2.2 x (by rwa [subEdgePos_dropLast] at hx) b
        (Option.mem_some_iff.mpr rfl)
      exact hlink.2.2.1

theorem mem_glueConcat {α : Type} : ∀ (l : List (List α)) (x : α),
    x ∈ glueConcat l → ∃ e ∈ l, x ∈ e
  | [], x, h => absurd h (by simp [glueConcat])
  | [e], x, h => ⟨e, by simp, h⟩
  | e :: e2 :: rest, x, h => by
    rw [show glueConcat (e :: e2 :: rest) = e.dropLast ++ glueConcat (e2 :: rest) from rfl,
      List.mem_append] at h
    rcases h with h | h
    · exact ⟨e, List.mem_cons_self _ _, List.dropLast_subset e h⟩
    · obtain ⟨e', he', hx⟩ := mem_glueConcat (e2 :: rest) x h
      exact ⟨e', List.mem_cons_of_mem e he', hx⟩

theorem glueConcat_map {α β : Type} (f : α → β) : ∀ l : List (List α),
    glueConcat (l.map (List.map f)) = (glueConcat l).map f
  | [] => rfl
  | [e] => rfl
  | e :: e2 :: rest => by
    show (e.map f).dropLast ++ glueConcat ((e2 :: rest).map (List.map f)) = _
    rw [glueConcat_map f (e2 :: rest)]
    show _ = (e.dropLast ++ glueConcat (e2 :: rest)).map f
    rw [List.map_append, List.map_dropLast]

theorem vertex_mem_glue {N : ℕ} : ∀ (s : List SplitPos) (a : SplitPos),
    List.Chain' SplitPos.lt (a :: s) →
    (∀ x ∈ a :: s, validPos N x) →
    ∀ v : SplitPos, v.t = 0 → s ≠ [] →
      SplitPos.le a v →
      SplitPos.le v ((a :: s).getLast (List.cons_ne_nil a s)) →
      v ∈ glueConcat (splitPairsEdges (a :: s))
  | [], _, _, _, _, _, hnil, _, _ => absurd rfl hnil
  | [b], a, hch, hv, v, hvt, _, hav, hvl => by
    show v ∈ subEdgePos a b
    have hlast : (a :: [b]).getLast (List.cons_ne_nil a [b]) = b := rfl
    rw [hlast] at hvl
    by_cases hvb : v = b
    · subst hvb
      unfold subEdgePos
      simp
    · by_cases hva : v = a
      · subst hva
        exact List.mem_cons_self _ _
      · have h1 : SplitPos.lt a v := SplitPos.ltOfLeOfNe hav (fun h => hva h.symm)
        have h2 : SplitPos.lt v b := SplitPos.ltOfLeOfNe hvl hvb
        have hp0 : 0 ≤ a.t := validPos_t_nonneg (hv a (by simp))
        obtain ⟨vs, vt⟩ := v
        have hvt' : vt = 0 := hvt
        subst hvt'
        have hmem := vertex_mem_innerVertices vs hp0 h1 h2
        unfold subEdgePos
        exact List.mem_cons_of_mem a (List.mem_append_left _ hmem)
  | b :: c :: s2, a, hch, hv, v, hvt, _, hav, hvl => by
    have hlast : (a :: b :: c :: s2).getLast (List.cons_ne_nil a (b :: c :: s2)) =
        (b :: c :: s2).getLast (List.cons_ne_nil b (c :: s2)) := List.getLast_cons _
    rw [hlast] at hvl
    rw [List.chain'_cons] at hch
    show v ∈ (subEdgePos a b).dropLast ++ glueConcat (splitPairsEdges (b :: c :: s2))
    rw [List.mem_append]
    rcases SplitPos.leTotal b v with hbv | hvb
    · exact Or.inr (vertex_mem_glue (c :: s2) b hch.2
        (fun x hx => hv x (List.mem_cons_of_mem a hx)) v hvt (by simp) hbv hvl)
    · by_cases hvb' : v = b
      · subst hvb'
        exact Or.inr (vertex_mem_glue (c :: s2) v hch.2
          (fun x hx => hv x (List.mem_cons_of_mem a hx)) v hvt (by simp)
          (SplitPos.leRefl v) hvl)
      · left
        rw [subEdgePos_dropLast]
        by_cases hva : v = a
        · subst hva
          exact List.mem_cons_self _ _
        · have h1 : SplitPos.lt a v := SplitPos.ltOfLeOfNe hav (fun h => hva h.symm)
          have h2 : SplitPos.lt v b := SplitPos.ltOfLeOfNe hvb hvb'
          have hp0 : 0 ≤ a.t := validPos_t_nonneg (hv a (by simp))
          obtain ⟨vs, vt⟩ := v
          have hvt' : vt = 0 := hvt
          subst hvt'
          exact List.mem_cons_of_mem a (vertex_mem_innerVertices vs hp0 h1 h2)

theorem sorted_subset_sublist : ∀ (l2 l1 : List SplitPos),
    List.Chain' SplitPos.lt l1 → List.Chain' SplitPos.lt l2 →
    (∀ x ∈ l1, x ∈ l2) → l1.Sublist l2
  | _, [], _, _, _ => List.nil_sublist _
  | [], a :: l1, _, _, hsub => absurd (hsub a (List.mem_cons_self _ _)) (by simp)
  | b :: l2, a :: l1, h1, h2, hsub => by
    have hp1 := List.chain'_iff_pairwise.mp h1
    have hp2 := List.chain'_iff_pairwise.mp h2
    by_cases hab : a = b
    · subst hab
      apply List.Sublist.cons₂
      apply sorted_subset_sublist l2 l1 h1.tail h2.tail
      intro x hx
      have hax : SplitPos.lt a x := (List.pairwise_cons.mp hp1).1 x hx
      have hmem := hsub x (List.mem_cons_of_mem a hx)
      rw [List.mem_cons] at hmem
      rcases hmem with rfl | hmem
      · exact absurd hax (SplitPos.ltIrrefl x)
      · exact hmem
    · have hamem : a ∈ l2 := by
        have := hsub a (List.mem_cons_self _ _)
        rw [List.mem_cons] at this
        exact this.resolve_left hab
      have hba : SplitPos.lt b a := (List.pairwise_cons.mp hp2).1 a hamem
      have hsub2 : ∀ x ∈ a :: l1, x ∈ l2 := by
        intro x hx
        rw [List.mem_cons] at hx
        rcases hx with rfl | hx
        · exact hamem
        · have hax : SplitPos.lt a x := (List.pairwise_cons.mp hp1).1 x hx
          have hxmem := hsub x (List.mem_cons_of_mem a hx)
          rw [List.mem_cons] at hxmem
          rcases hxmem with rfl | hxmem
          · exact absurd (SplitPos.ltTrans hba hax) (SplitPos.ltIrrefl x)
          · exact hxmem
      exact List.Sublist.cons b (sorted_subset_sublist l2 (a :: l1) h1 h2.tail hsub2)

/-- The positions of all original vertices of an edge of n coordinates. -/
def vertexPositions (n : ℕ) : List SplitPos := vertexRun 0 n

theorem chain_lt_vertexPositions (n : ℕ) :
    List.Chain' SplitPos.lt (vertexPositions n) :=
  List.Chain'.imp (fun _ _ hr => hr.2.2.1) (chain'_vertexRun (N := n) n 0 (by omega))

theorem map_posCoord_vertexRun (coords : List Coord) : ∀ (k s : ℕ),
    s + k ≤ coords.length →
    (vertexRun s k).map (posCoord coords) = (coords.drop s).take k
  | 0, s, _ => by simp [vertexRun]
  | k + 1, s, h => by
    rw [show vertexRun s (k + 1) = ⟨s, 0⟩ :: vertexRun (s + 1) k from rfl, List.map_cons,
      posCoord_vertex, map_posCoord_vertexRun coords k (s + 1) (by omega)]
    have hs : s < coords.length := by omega
    rw [List.getD_eq_getElem coords default hs, List.drop_eq_getElem_cons hs,
      List.take_succ_cons]

theorem map_posCoord_vertexPositions (coords : List Coord) :
    (vertexPositions coords.length).map (posCoord coords) = coords := by
  unfold vertexPositions
  rw [map_posCoord_vertexRun coords coords.length 0 (by omega), List.drop_zero,
    List.take_length]

theorem splitsOf_endpoint_ints : ∀ (ints : List SplitPos) (n : ℕ), 2 ≤ n →
    (∀ p ∈ ints, p = ⟨0, 0⟩ ∨ p = ⟨n - 1, 0⟩) →
    List.Chain' SplitPos.le ints →
    splitsOf n ints = [⟨0, 0⟩, ⟨n - 1, 0⟩]
  | [], n, hn, _, _ => by
    have he_ne : (⟨0, 0⟩ : SplitPos) ≠ ⟨n - 1, 0⟩ := by
      intro hc
      rw [SplitPos.mk.injEq] at hc
      omega
    unfold splitsOf
    rw [List.cons_append, List.nil_append]
    simp only [dedupC, if_neg he_ne]
  | p :: rest, n, hn, hmem, hch => by
    have he_ne : (⟨0, 0⟩ : SplitPos) ≠ ⟨n - 1, 0⟩ := by
      intro hc
      rw [SplitPos.mk.injEq] at hc
      omega
    rcases hmem p (List.mem_cons_self _ _) with rfl | rfl
    · unfold splitsOf
      rw [List.cons_append, List.cons_append]
      simp only [dedupC, if_pos rfl]
      have ih := splitsOf_endpoint_ints rest n hn
        (fun x hx => hmem x (List.mem_cons_of_mem _ hx)) hch.tail
      unfold splitsOf at ih
      rw [List.cons_append] at ih
      exact ih
    · have hall : ∀ x ∈ rest ++ [⟨n - 1, 0⟩], x = (⟨n - 1, 0⟩ : SplitPos) := by
        intro x hx
        rw [List.mem_append, List.mem_singleton] at hx
        rcases hx with hx | rfl
        · have hpw := List.chain'_iff_pairwise.mp hch
          have hex : SplitPos.le ⟨n - 1, 0⟩ x := (List.pairwise_cons.mp hpw).1 x hx
          rcases hmem x (List.mem_cons_of_mem _ hx) with rfl | rfl
          · exfalso
            rcases hex with h | ⟨h, _⟩
            · have h' : n - 1 < 0 := h
              omega
            · have h' : n - 1 = 0 := h
              omega
          · rfl
        · rfl
      unfold splitsOf
      rw [List.cons_append, List.cons_append]
      simp only [dedupC, if_neg he_ne]
      rw [dedupC_const _ _ hall]

theorem subEdge_full_map (coords : List Coord) (hn : 2 ≤ coords.length) :
    (subEdgePos ⟨0, 0⟩ ⟨coords.length - 1, 0⟩).map (posCoord coords) = coords := by
  have hcount : innerVertexCount ⟨0, 0⟩ ⟨coords.length - 1, 0⟩ = coords.length - 2 := by
    unfold innerVertexCount
    rw [if_neg (lt_irrefl (0 : ℚ))]
    show coords.length - 1 - (0 + 1) = coords.length - 2
    omega
  unfold subEdgePos innerVertices
  rw [hcount, List.map_cons, List.map_append, List.map_singleton,
    posCoord_vertex coords 0, posCoord_vertex coords (coords.length - 1)]
  have hrun : (vertexRun ((⟨0, 0⟩ : SplitPos).seg + 1) (coords.length - 2)).map
      (posCoord coords) = (coords.drop 1).take (coords.length - 2) :=
    map_posCoord_vertexRun coords (coords.length - 2) 1 (by omega)
  rw [hrun]
  have h0 : 0 < coords.length := by omega
  have hn1 : coords.length - 1 < coords.length := by omega
  rw [List.getD_eq_getElem coords default h0, List.getD_eq_getElem coords default hn1]
  conv_rhs => rw [← List.drop_zero coords, List.drop_eq_getElem_cons h0]
  congr 1
  conv_rhs => rw [← List.take_append_drop (coords.length - 2) (coords.drop 1)]
  congr 1
  rw [List.drop_drop]
  have h21 : 1 + (coords.length - 2) = coords.length - 1 := by omega
  rw [h21, List.drop_eq_getElem_cons hn1]
  have hlen : coords.length - 1 + 1 = coords.length := by omega
  rw [hlen, List.drop_length]

/-- C7: Noding is idempotent.  On an already-noded edge set, the only
intersections the intersection phase records again lie at the edges'
endpoints (sub-edges of a noded set meet only at endpoints), and
re-running the noder with all recorded positions at the endpoints
returns the edge unchanged: no further splits are produced. -/
theorem noder_idempotent (coords : List Coord) (ints : List SplitPos)
    (hn : 2 ≤ coords.length)
    (hends : ∀ p ∈ ints, p = ⟨0, 0⟩ ∨ p = ⟨coords.length - 1, 0⟩)
    (hsorted : List.Chain' SplitPos.le ints) :
    noderSplit coords ints = [coords] := by
  unfold noderSplit noderSplitPos
  rw [splitsOf_endpoint_ints ints coords.length hn hends hsorted]
  show [(subEdgePos ⟨0, 0⟩ ⟨coords.length - 1, 0⟩).map (posCoord coords)] = [coords]
  rw [subEdge_full_map coords hn]

theorem noder_idempotent_witness :
    noderSplit [(⟨0, 0⟩ : Coord), ⟨1, 0⟩] [] = [[(⟨0, 0⟩ : Coord), ⟨1, 0⟩]] :=
  noder_idempotent [⟨0, 0⟩, ⟨1, 0⟩] [] (by norm_num) (by simp) (by simp)

theorem zip_tail_chain {α : Type} : ∀ (l : List α),
    List.Chain' (fun u v : α × α => u.2 = v.1) (l.zip l.tail)
  | [] => by simp
  | [a] => by simp
  | a :: b :: rest => by
    have ih := zip_tail_chain (b :: rest)
    rw [show (a :: b :: rest).zip (a :: b :: rest).tail =
      (a, b) :: ((b :: rest).zip rest) from rfl, List.chain'_cons']
    refine ⟨?_, ih⟩
    intro y hy
    cases rest with
    | nil => simp at hy
    | cons c rest2 =>
      rw [show (b :: c :: rest2).zip (c :: rest2) =
        (b, c) :: ((c :: rest2).zip rest2) from rfl, List.head?_cons,
        Option.mem_some_iff] at hy
      subst hy
      rfl

theorem chain'_zip_rel {α : Type} {R : α → α → Prop} : ∀ (l : List α),
    List.Chain' R l → ∀ pq ∈ l.zip l.tail, R pq.1 pq.2
  | [], _, _, h => absurd h (by simp)
  | [a], _, _, h => absurd h (by simp)
  | a :: b :: rest, hc, pq, h => by
    rw [List.chain'_cons] at hc
    rw [show (a :: b :: rest).zip (a :: b :: rest).tail =
      (a, b) :: ((b :: rest).zip rest) from rfl, List.mem_cons] at h
    rcases h with rfl | h
    · exact hc.1
    · exact chain'_zip_rel (b :: rest) hc.2 pq h

theorem splitsOf_shape {n : ℕ} (ints : List SplitPos) (hn : 2 ≤ n) :
    ∃ s, splitsOf n ints = ⟨0, 0⟩ :: s ∧ s ≠ [] := by
  have hh := splitsOf_head n ints
  have hl := splitsOf_getLast n ints
  cases hsp : splitsOf n ints with
  | nil =>
    rw [hsp] at hh
    cases hh
  | cons a s =>
    rw [hsp, List.head?_cons, Option.some.injEq] at hh
    subst hh
    refine ⟨s, rfl, ?_⟩
    intro hc
    subst hc
    rw [hsp] at hl
    rw [show ([(⟨0, 0⟩ : SplitPos)]).getLast? = some ⟨0, 0⟩ from rfl,
      Option.some.injEq, SplitPos.mk.injEq] at hl
    omega

theorem mem_subEdgePos_cases {n : ℕ} {p q x : SplitPos} (hp : validPos n p)
    (hq : validPos n q) (h : x ∈ subEdgePos p q) :
    x = p ∨ x = q ∨ (x.t = 0 ∧ x.seg < n) := by
  rcases mem_subEdgePos h with h | h | ⟨ht, h1, h2⟩
  · exact Or.inl h
  · exact Or.inr (Or.inl h)
  · refine Or.inr (Or.inr ⟨ht, ?_⟩)
    unfold innerVertexCount at h2
    have hpn : p.seg + 1 ≤ n := by
      rcases hp with ⟨hh, _⟩ | ⟨hh, _⟩ <;> omega
    by_cases hqt : 0 < q.t
    · rw [if_pos hqt] at h2
      have hqI : q.seg + 1 < n := by
        rcases hq with ⟨hh, _⟩ | ⟨hh, hh2⟩
        · exact hh
        · exfalso
          rw [hh2] at hqt
          exact absurd hqt (lt_irrefl 0)
      omega
    · rw [if_neg hqt] at h2
      have hqn : q.seg + 1 ≤ n := by
        rcases hq with ⟨hh, _⟩ | ⟨hh, _⟩ <;> omega
      omega

theorem SplitPos.ltAsymm {p q : SplitPos} (h1 : SplitPos.lt p q)
    (h2 : SplitPos.lt q p) : False :=
  SplitPos.ltIrrefl p (SplitPos.ltTrans h1 h2)

theorem subEdgePos_strict_between {p q x : SplitPos} (h : x ∈ subEdgePos p q) :
    x = p ∨ x = q ∨ (SplitPos.lt p x ∧ SplitPos.lt x q) := by
  rcases mem_subEdgePos h with h | h | ⟨ht, h1, h2⟩
  · exact Or.inl h
  · exact Or.inr (Or.inl h)
  · refine Or.inr (Or.inr ⟨Or.inl (by omega), ?_⟩)
    unfold innerVertexCount at h2
    by_cases hqt : 0 < q.t
    · rw [if_pos hqt] at h2
      rcases Nat.lt_or_ge x.seg q.seg with hlt | hge
      · exact Or.inl hlt
      · refine Or.inr ⟨by omega, ?_⟩
        rw [ht]
        exact hqt
    · rw [if_neg hqt] at h2
      exact Or.inl (by omega)

theorem splits_mem_subEdge_endpoint {s : List SplitPos}
    (hpw : List.Pairwise SplitPos.lt s) {i : ℕ}
    (hi : i < s.length) (hi1 : i + 1 < s.length) {x : SplitPos}
    (hx : x ∈ subEdgePos (s.get ⟨i, hi⟩) (s.get ⟨i + 1, hi1⟩))
    (hxs : x ∈ s) :
    x = s.get ⟨i, hi⟩ ∨ x = s.get ⟨i + 1, hi1⟩ := by
  rcases subEdgePos_strict_between hx with h | h | ⟨hl, hr⟩
  · exact Or.inl h
  · exact Or.inr h
  · exfalso
    obtain ⟨k, hk⟩ := List.mem_iff_get.mp hxs
    have hget := List.pairwise_iff_get.mp hpw
    rcases Nat.lt_trichotomy k.val i with hki | hki | hki
    · have hc := hget k ⟨i, hi⟩ (Fin.lt_def.mpr (show k.val < i from hki))
      rw [hk] at hc
      exact SplitPos.ltAsymm hl hc
    · have hxeq : x = s.get ⟨i, hi⟩ := by
        rw [← hk]
        congr 1
        exact Fin.ext hki
      rw [hxeq] at hl
      exact SplitPos.ltIrrefl _ hl
    · rcases Nat.lt_or_ge k.val (i + 2) with hk2 | hk2
      · have hxeq : x = s.get ⟨i + 1, hi1⟩ := by
          rw [← hk]
          congr 1
          exact Fin.ext (show k.val = i + 1 by omega)
        rw [hxeq] at hr
        exact SplitPos.ltIrrefl _ hr
      · have hc := hget ⟨i + 1, hi1⟩ k (Fin.lt_def.mpr (show i + 1 < k.val by omega))
        rw [hk] at hc
        exact SplitPos.ltAsymm hr hc

theorem shared_coord_is_endpoint (coords : List Coord) (ints : List SplitPos)
    (hn : 2 ≤ coords.length)
    (hsorted : List.Chain' SplitPos.le ints)
    (hvalid : ∀ p ∈ ints, validPos coords.length p)
    (hcomp : ∀ x ∈ (noderSplitPos coords.length ints).flatten,
      ∀ y ∈ (noderSplitPos coords.length ints).flatten,
      posCoord coords x = posCoord coords y →
        x = y ∨ (x ∈ splitsOf coords.length ints ∧ y ∈ splitsOf coords.length ints)) :
    ∀ i j, i ≠ j → ∀ c, c ∈ (noderSplit coords ints).getD i [] →
      c ∈ (noderSplit coords ints).getD j [] →
      ((noderSplit coords ints).getD i []).head? = some c ∨
        ((noderSplit coords ints).getD i []).getLast? = some c := by
  intro i j hij c hci hcj
  have hlen1 : (noderSplit coords ints).length =
      ((splitsOf coords.length ints).zip (splitsOf coords.length ints).tail).length := by
    unfold noderSplit noderSplitPos splitPairsEdges
    rw [List.length_map, List.length_map]
  have hilt0 : i < (noderSplit coords ints).length := by
    by_contra hge
    rw [not_lt] at hge
    rw [List.getD_eq_default _ _ hge] at hci
    cases hci
  have hjlt0 : j < (noderSplit coords ints).length := by
    by_contra hge
    rw [not_lt] at hge
    rw [List.getD_eq_default _ _ hge] at hcj
    cases hcj
  have hip : i < (splitsOf coords.length ints).length - 1 := by
    rw [hlen1, List.length_zip, List.length_tail,
      min_eq_right (Nat.sub_le _ _)] at hilt0
    exact hilt0
  have hjp : j < (splitsOf coords.length ints).length - 1 := by
    rw [hlen1, List.length_zip, List.length_tail,
      min_eq_right (Nat.sub_le _ _)] at hjlt0
    exact hjlt0
  have hilt : i < (splitsOf coords.length ints).length := by omega
  have hi1lt : i + 1 < (splitsOf coords.length ints).length := by omega
  have hjlt : j < (splitsOf coords.length ints).length := by omega
  have hj1lt : j + 1 < (splitsOf coords.length ints).length := by omega
  have hedge : ∀ k (hk1 : k < (splitsOf coords.length ints).length - 1)
      (hk2 : k < (splitsOf coords.length ints).length)
      (hk3 : k + 1 < (splitsOf coords.length ints).length),
      (noderSplit coords ints).getD k [] =
        (subEdgePos ((splitsOf coords.length ints).get ⟨k, hk2⟩)
          ((splitsOf coords.length ints).get ⟨k + 1, hk3⟩)).map (posCoord coords) := by
    intro k hk1 hk2 hk3
    have hkz : k < ((splitsOf coords.length ints).zip
        (splitsOf coords.length ints).tail).length := by
      rw [List.length_zip, List.length_tail, min_eq_right (Nat.sub_le _ _)]
      exact hk1
    have hkn : k < (noderSplit coords ints).length := by
      rw [hlen1]
      exact hkz
    rw [List.getD_eq_getElem _ _ hkn]
    unfold noderSplit noderSplitPos splitPairsEdges
    rw [List.getElem_map, List.getElem_map, List.getElem_zip, List.getElem_tail]
    simp [List.get_eq_getElem]
  have hpairmem : ∀ k (hk1 : k < (splitsOf coords.length ints).length - 1)
      (hk2 : k < (splitsOf coords.length ints).length)
      (hk3 : k + 1 < (splitsOf coords.length ints).length),
      subEdgePos ((splitsOf coords.length ints).get ⟨k, hk2⟩)
          ((splitsOf coords.length ints).get ⟨k + 1, hk3⟩) ∈
        noderSplitPos coords.length ints := by
    intro k hk1 hk2 hk3
    have hkz : k < ((splitsOf coords.length ints).zip
        (splitsOf coords.length ints).tail).length := by
      rw [List.length_zip, List.length_tail, min_eq_right (Nat.sub_le _ _)]
      exact hk1
    unfold noderSplitPos splitPairsEdges
    rw [List.mem_map]
    refine ⟨((splitsOf coords.length ints).get ⟨k, hk2⟩,
      (splitsOf coords.length ints).get ⟨k + 1, hk3⟩), ?_, rfl⟩
    have hz : ((splitsOf coords.length ints).zip
        (splitsOf coords.length ints).tail)[k] =
        ((splitsOf coords.length ints).get ⟨k, hk2⟩,
          (splitsOf coords.length ints).get ⟨k + 1, hk3⟩) := by
      rw [List.getElem_zip, List.getElem_tail]
      simp [List.get_eq_getElem]
    rw [← hz]
    exact List.getElem_mem hkz
  rw [hedge i hip hilt hi1lt] at hci
  rw [hedge j hjp hjlt hj1lt] at hcj
  obtain ⟨x, hx, hcx⟩ := List.mem_map.mp hci
  obtain ⟨y, hy, hcy⟩ := List.mem_map.mp hcj
  have hxflat : x ∈ (noderSplitPos coords.length ints).flatten :=
    List.mem_flatten.mpr ⟨_, hpairmem i hip hilt hi1lt, hx⟩
  have hyflat : y ∈ (noderSplitPos coords.length ints).flatten :=
    List.mem_flatten.mpr ⟨_, hpairmem j hjp hjlt hj1lt, hy⟩
  have hchain := splitsOf_chain_lt hn hsorted hvalid
  have hpw := List.chain'_iff_pairwise.mp hchain
  have hget := List.pairwise_iff_get.mp hpw
  have hvs := splitsOf_valid hn hvalid
  have hmemget : ∀ (k : ℕ) (hk : k < (splitsOf coords.length ints).length),
      (splitsOf coords.length ints).get ⟨k, hk⟩ ∈ splitsOf coords.length ints := by
    intro k hk
    rw [List.get_eq_getElem]
    exact List.getElem_mem hk
  rcases hcomp x hxflat y hyflat (by rw [hcx, hcy]) with hxy | ⟨hxs, _⟩
  · -- the shared coordinate sits at one shared position: it must be the
    -- split point separating the two sub-edge intervals
    subst hxy
    have hlt_i : SplitPos.lt ((splitsOf coords.length ints).get ⟨i, hilt⟩)
        ((splitsOf coords.length ints).get ⟨i + 1, hi1lt⟩) :=
      hget ⟨i, hilt⟩ ⟨i + 1, hi1lt⟩ (Fin.mk_lt_mk.mpr (Nat.lt_succ_self i))
    have hlt_j : SplitPos.lt ((splitsOf coords.length ints).get ⟨j, hjlt⟩)
        ((splitsOf coords.length ints).get ⟨j + 1, hj1lt⟩) :=
      hget ⟨j, hjlt⟩ ⟨j + 1, hj1lt⟩ (Fin.mk_lt_mk.mpr (Nat.lt_succ_self j))
    have hint_i := subEdgePos_between hlt_i
      (validPos_t_nonneg (hvs _ (hmemget (i + 1) hi1lt))) hx
    have hint_j := subEdgePos_between hlt_j
      (validPos_t_nonneg (hvs _ (hmemget (j + 1) hj1lt))) hy
    rcases Nat.lt_or_gt_of_ne hij with hlt | hlt
    · have hle_mid : SplitPos.le ((splitsOf coords.length ints).get ⟨i + 1, hi1lt⟩)
          ((splitsOf coords.length ints).get ⟨j, hjlt⟩) := by
        rcases Nat.eq_or_lt_of_le (show i + 1 ≤ j by omega) with heq | hlt2
        · have hfe : (⟨i + 1, hi1lt⟩ : Fin (splitsOf coords.length ints).length) =
              ⟨j, hjlt⟩ := by
            rw [Fin.mk.injEq]
            exact heq
          rw [hfe]
          exact SplitPos.leRefl _
        · exact SplitPos.leOfLt (hget ⟨i + 1, hi1lt⟩ ⟨j, hjlt⟩ (Fin.mk_lt_mk.mpr hlt2))
      have hxeq : x = (splitsOf coords.length ints).get ⟨i + 1, hi1lt⟩ :=
        SplitPos.leAntisymm hint_i.2 (SplitPos.leTrans hle_mid hint_j.1)
      right
      rw [hedge i hip hilt hi1lt, List.getLast?_map, subEdgePos_getLast]
      simp only [Option.map_some']
      rw [← hxeq, hcx]
    · have hle_mid : SplitPos.le ((splitsOf coords.length ints).get ⟨j + 1, hj1lt⟩)
          ((splitsOf coords.length ints).get ⟨i, hilt⟩) := by
        rcases Nat.eq_or_lt_of_le (show j + 1 ≤ i by omega) with heq | hlt2
        · have hfe : (⟨j + 1, hj1lt⟩ : Fin (splitsOf coords.length ints).length) =
              ⟨i, hilt⟩ := by
            rw [Fin.mk.injEq]
            exact heq
          rw [hfe]
          exact SplitPos.leRefl _
        · exact SplitPos.leOfLt (hget ⟨j + 1, hj1lt⟩ ⟨i, hilt⟩ (Fin.mk_lt_mk.mpr hlt2))
      have hxeq : x = (splitsOf coords.length ints).get ⟨i, hilt⟩ :=
        SplitPos.leAntisymm (SplitPos.leTrans hint_j.2 hle_mid) hint_i.1
      left
      rw [hedge i hip hilt hi1lt, List.head?_map, subEdgePos_head]
      simp only [Option.map_some']
      rw [← hxeq, hcx]
  · -- the two coinciding positions are recorded split points, and a
    -- split point occurs in a sub-edge only as one of its endpoints
    rcases splits_mem_subEdge_endpoint hpw hilt hi1lt hx hxs with hxeq | hxeq
    · left
      rw [hedge i hip hilt hi1lt, List.head?_map, subEdgePos_head]
      simp only [Option.map_some']
      rw [← hxeq, hcx]
    · right
      rw [hedge i hip hilt hi1lt, List.getLast?_map, subEdgePos_getLast]
      simp only [Option.map_some']
      rw [← hxeq, hcx]

/-- C4 (amended): For every edge with its accumulated, sorted, valid
intersection list, the Noder's output is an ordered sequence of
sub-edges such that: consecutive sub-edges glue at shared endpoints;
the glued concatenation reproduces the original coordinate sequence
with only the recorded intersection points inserted (the original
sequence is a subsequence, and every output coordinate is an original
vertex or a recorded intersection coordinate); no sub-edge is
zero-length (each has at least two coordinates, all consecutive ones
distinct), even when an intersection coincides with an existing vertex;
and, whenever the recorded split list is complete (every coordinate
coincidence between positions of the output is an equality of positions
or holds between recorded split positions), a coordinate shared by two
distinct sub-edges is an endpoint of both. -/
theorem noder_output_properties (coords : List Coord) (ints : List SplitPos)
    (hn : 2 ≤ coords.length)
    (hadj : List.Chain' (fun c1 c2 => c1 ≠ c2) coords)
    (hsorted : List.Chain' SplitPos.le ints)
    (hvalid : ∀ p ∈ ints, validPos coords.length p) :
    List.Chain' (fun e1 e2 => e1.getLast? = e2.head?) (noderSplit coords ints) ∧
    coords.Sublist (glueConcat (noderSplit coords ints)) ∧
    (∀ c ∈ glueConcat (noderSplit coords ints),
      (∃ i, i < coords.length ∧ c = coords.getD i default) ∨
        ∃ p ∈ ints, c = posCoord coords p) ∧
    (∀ e ∈ noderSplit coords ints, 2 ≤ e.length ∧
      List.Chain' (fun c1 c2 => c1 ≠ c2) e) ∧
    ((∀ x ∈ (noderSplitPos coords.length ints).flatten,
        ∀ y ∈ (noderSplitPos coords.length ints).flatten,
        posCoord coords x = posCoord coords y →
          x = y ∨ (x ∈ splitsOf coords.length ints ∧
            y ∈ splitsOf coords.length ints)) →
      ∀ i j, i ≠ j → ∀ c, c ∈ (noderSplit coords ints).getD i [] →
        c ∈ (noderSplit coords ints).getD j [] →
        (((noderSplit coords ints).getD i []).head? = some c ∨
          ((noderSplit coords ints).getD i []).getLast? = some c) ∧
        (((noderSplit coords ints).getD j []).head? = some c ∨
          ((noderSplit coords ints).getD j []).getLast? = some c)) := by
  have hchain := splitsOf_chain_lt hn hsorted hvalid
  have hvs := splitsOf_valid hn hvalid
  obtain ⟨stail, hshape, hne⟩ := splitsOf_shape (n := coords.length) ints hn
  have hglueP : glueConcat (noderSplit coords ints) =
      (glueConcat (noderSplitPos coords.length ints)).map (posCoord coords) := by
    unfold noderSplit
    exact glueConcat_map _ _
  refine ⟨?_, ?_, ?_, ?_, ?_⟩
  · -- consecutive sub-edges glue at shared endpoints
    unfold noderSplit noderSplitPos splitPairsEdges
    rw [List.map_map, List.chain'_map]
    apply List.Chain'.imp ?_ (zip_tail_chain (splitsOf coords.length ints))
    intro u v huv
    show ((subEdgePos u.1 u.2).map (posCoord coords)).getLast? =
      ((subEdgePos v.1 v.2).map (posCoord coords)).head?
    rw [List.getLast?_map, List.head?_map, subEdgePos_getLast, subEdgePos_head]
    simp only [Option.map_some']
    rw [huv]
  · -- the original sequence is a subsequence of the glued output
    rw [hglueP]
    have hchain' := hchain
    have hvs' := hvs
    rw [hshape] at hchain' hvs'
    have hsub : (vertexPositions coords.length).Sublist
        (glueConcat (noderSplitPos coords.length ints)) := by
      apply sorted_subset_sublist _ _ (chain_lt_vertexPositions _) ?_ ?_
      · unfold noderSplitPos
        rw [hshape]
        exact glue_chain_lt (N := coords.length) stail ⟨0, 0⟩ hchain' hvs'
      · intro v hv
        unfold vertexPositions at hv
        obtain ⟨hvt, _, hvn⟩ := mem_vertexRun coords.length 0 v hv
        unfold noderSplitPos
        rw [hshape]
        apply vertex_mem_glue (N := coords.length) stail ⟨0, 0⟩ hchain' hvs' v hvt hne
        · rcases Nat.eq_zero_or_pos v.seg with h0 | h0
          · refine Or.inr ⟨h0.symm, ?_⟩
            rw [hvt]
          · exact Or.inl h0
        · have hlast : (⟨0, 0⟩ :: stail).getLast (List.cons_ne_nil _ _) =
              ⟨coords.length - 1, 0⟩ := by
            have hl := splitsOf_getLast coords.length ints
            rw [hshape, List.getLast?_eq_getLast _ (List.cons_ne_nil _ _),
              Option.some.injEq] at hl
            exact hl
          rw [hlast]
          rcases Nat.lt_or_ge v.seg (coords.length - 1) with hlt | hge
          · exact Or.inl hlt
          · refine Or.inr ⟨by show v.seg = coords.length - 1; omega, ?_⟩
            rw [hvt]
    have hmap := hsub.map (posCoord coords)
    rwa [map_posCoord_vertexPositions] at hmap
  · -- every output coordinate is an original vertex or a recorded intersection
    intro c hc
    rw [hglueP, List.mem_map] at hc
    obtain ⟨x, hxg, hcx⟩ := hc
    obtain ⟨e, he, hxe⟩ := mem_glueConcat _ _ hxg
    unfold noderSplitPos splitPairsEdges at he
    rw [List.mem_map] at he
    obtain ⟨pq, hpq, hpe⟩ := he
    obtain ⟨p1, p2⟩ := pq
    obtain ⟨h1m, h2m⟩ := List.of_mem_zip hpq
    have h2m' := List.mem_of_mem_tail h2m
    subst hpe
    have hsplit_case : ∀ z ∈ splitsOf coords.length ints,
        (∃ i, i < coords.length ∧ posCoord coords z = coords.getD i default) ∨
          ∃ p ∈ ints, z = p := by
      intro z hz
      have hzm := dedupC_subset _ z hz
      rw [List.mem_append, List.mem_cons, List.mem_singleton] at hzm
      rcases hzm with (rfl | hzi) | rfl
      · exact Or.inl ⟨0, by omega, posCoord_vertex coords 0⟩
      · exact Or.inr ⟨z, hzi, rfl⟩
      · exact Or.inl ⟨coords.length - 1, by omega, posCoord_vertex coords _⟩
    rcases mem_subEdgePos_cases (hvs _ h1m) (hvs _ h2m') hxe with heq | heq | ⟨ht, hseg⟩
    · subst heq
      rcases hsplit_case x h1m with ⟨i, hi, hpc⟩ | ⟨p, hp, rfl⟩
      · exact Or.inl ⟨i, hi, by rw [← hcx, hpc]⟩
      · exact Or.inr ⟨x, hp, hcx.symm⟩
    · subst heq
      rcases hsplit_case x h2m' with ⟨i, hi, hpc⟩ | ⟨p, hp, rfl⟩
      · exact Or.inl ⟨i, hi, by rw [← hcx, hpc]⟩
      · exact Or.inr ⟨x, hp, hcx.symm⟩
    · obtain ⟨xs, xt⟩ := x
      have ht' : xt = 0 := ht
      subst ht'
      left
      refine ⟨xs, hseg, ?_⟩
      rw [← hcx, posCoord_vertex]
  · -- no zero-length sub-edge
    intro e he
    unfold noderSplit noderSplitPos splitPairsEdges at he
    rw [List.map_map, List.mem_map] at he
    obtain ⟨pq, hpq, hpe⟩ := he
    obtain ⟨p1, p2⟩ := pq
    obtain ⟨h1m, h2m⟩ := List.of_mem_zip hpq
    have h2m' := List.mem_of_mem_tail h2m
    have hlt12 : SplitPos.lt p1 p2 := chain'_zip_rel _ hchain (p1, p2) hpq
    subst hpe
    constructor
    · show 2 ≤ ((subEdgePos p1 p2).map (posCoord coords)).length
      rw [List.length_map]
      exact subEdgePos_length p1 p2
    · show List.Chain' (fun c1 c2 => c1 ≠ c2) ((subEdgePos p1 p2).map (posCoord coords))
      exact chain_ne_subEdge coords hadj (hvs _ h1m) (hvs _ h2m') hlt12
  · -- a shared coordinate is an endpoint of both sub-edges
    exact fun hcomp i j hij c hci hcj =>
      ⟨shared_coord_is_endpoint coords ints hn hsorted hvalid hcomp i j hij c hci hcj,
        shared_coord_is_endpoint coords ints hn hsorted hvalid hcomp j i
          (Ne.symm hij) c hcj hci⟩

/-- C4 counterexample: the claim as stated fails.  Splitting the edge
(0,0)-(2,0) at its recorded (sorted, valid) interior intersection
position (segment 0, parameter 1/2, the point (1,0)) produces the
sub-edges (0,0)-(1,0) and (1,0)-(2,0), whose concatenation is
(0,0),(1,0),(2,0): the intersection point is necessarily inserted, so
the concatenation does not reproduce the original coordinate sequence
verbatim. -/
theorem noder_concat_inserts_points :
    validPos 2 ⟨0, 1/2⟩ ∧
      List.Chain' SplitPos.le [(⟨0, 1/2⟩ : SplitPos)] ∧
      glueConcat (noderSplit [(⟨0, 0⟩ : Coord), ⟨2, 0⟩] [⟨0, 1/2⟩]) ≠
        [(⟨0, 0⟩ : Coord), ⟨2, 0⟩] := by
  refine ⟨Or.inl ⟨by norm_num, by norm_num, by norm_num⟩, List.chain'_singleton _, ?_⟩
  have heval : glueConcat (noderSplit [(⟨0, 0⟩ : Coord), ⟨2, 0⟩] [⟨0, 1/2⟩]) =
      [(⟨0, 0⟩ : Coord), ⟨1, 0⟩, ⟨2, 0⟩] := by
    norm_num [noderSplit, noderSplitPos, splitsOf, dedupC, splitPairsEdges,
      subEdgePos, innerVertices, innerVertexCount, vertexRun, posCoord, interp,
      glueConcat, SplitPos.mk.injEq, List.zip]
  rw [heval]
  intro hc
  simp at hc

theorem noder_output_properties_witness :
    List.Chain' (fun e1 e2 => e1.getLast? = e2.head?)
      (noderSplit [(⟨0, 0⟩ : Coord), ⟨2, 0⟩] [⟨0, 1/2⟩]) :=
  (noder_output_properties [⟨0, 0⟩, ⟨2, 0⟩] [⟨0, 1/2⟩]
    (by norm_num)
    (by norm_num [List.chain'_cons, List.chain'_singleton, Coord.mk.injEq])
    (List.chain'_singleton _)
    (by
      intro p hp
      rw [List.mem_singleton] at hp
      subst hp
      exact Or.inl ⟨by norm_num, by norm_num, by norm_num⟩)).1

/-- The indexed segments of a coordinate sequence. -/
def segsIdx (cs : List Coord) : List (ℕ × Coord × Coord) :=
  (List.range (cs.length - 1)).map fun j => (j, cs.getD j default, cs.getD (j + 1) default)

/-- Normalize a split position with parameter 1 to the start of the
next segment (an intersection at a segment's far endpoint is the same
point as the next vertex). -/
def normPos (p : SplitPos) : SplitPos :=
  if p.t = 1 then ⟨p.seg + 1, 0⟩ else p

/-- Modelled from the spec: the split positions recorded on the edge of
`first` by the intersection phase against the edges of `second`, in the
transversal (non-parallel) regime: for each intersecting non-parallel
segment pair, the parametric position of the intersection point on the
`first` segment. -/
def splitsOnFirst (first second : List Coord) : List SplitPos :=
  (segsIdx first).flatMap fun ja =>
    (segsIdx second).flatMap fun kc =>
      if segmentsIntersect ja.2.1 ja.2.2 kc.2.1 kc.2.2 = true ∧
          orient2d kc.2.1 kc.2.2 ja.2.1 ≠ orient2d kc.2.1 kc.2.2 ja.2.2 then
        [normPos ⟨ja.1, orient2d kc.2.1 kc.2.2 ja.2.1 /
          (orient2d kc.2.1 kc.2.2 ja.2.1 - orient2d kc.2.1 kc.2.2 ja.2.2)⟩]
      else []

/-- The recorded intersection list of an edge, kept sorted by position
with duplicates merged (the Edge invariant of the data model). -/
def sortedSplits (first second : List Coord) : List SplitPos :=
  dedupC (List.insertionSort SplitPos.le (splitsOnFirst first second))

/-- One ray-crossing test: the horizontal ray from p to the right
crosses the segment a-b. -/
def raySegCrosses (p a b : Coord) : Bool :=
  (decide (a.y ≤ p.y) && decide (p.y < b.y) && decide (orient2d a b p > 0)) ||
    (decide (b.y ≤ p.y) && decide (p.y < a.y) && decide (orient2d a b p < 0))

/-- Modelled from the spec: the location of a point relative to a
polygon ring - Boundary on a ring segment, else Interior or Exterior by
ray-crossing parity. -/
def pointInRing (ring : List Coord) (p : Coord) : Location :=
  if (segsIdx ring).any (fun s => onSegment s.2.1 s.2.2 p) then .boundary
  else if ((segsIdx ring).filter fun s => raySegCrosses p s.2.1 s.2.2).length % 2 = 1
    then .interior
  else .exterior

/-- p lies on some segment of the coordinate sequence cs. -/
def onAnySeg (cs : List Coord) (p : Coord) : Bool :=
  (segsIdx cs).any fun s => onSegment s.2.1 s.2.2 p

/-- The midpoint of the first segment of a sub-edge: a representative
interior point of the sub-edge (after noding, the whole sub-edge lies
in one location class). -/
def repPoint (e : List Coord) : Coord :=
  interp (e.getD 0 default) (e.getD 1 default) (1 / 2)

/-- Modelled from the spec: the labeled graph elements of relate(A, B)
for a polygon A given by one shell ring versus a linestring B, in the
transversal regime: B's noded sub-edges and nodes labeled relative to A
by point-in-ring, A's noded ring sub-edges and nodes labeled relative
to B, and the two area elements contributed by the
exterior-elimination rule (A's interior and exterior each meet B's
exterior in dimension 2). -/
def polyLineElements (ring line : List Coord) : List LabeledElement :=
  let lineSplits := sortedSplits line ring
  let ringSplits := sortedSplits ring line
  let lineNodesPos := splitsOf line.length lineSplits
  let lineSubElems := (noderSplit line lineSplits).map fun e =>
    (⟨pointInRing ring (repPoint e), .interior, 1⟩ : LabeledElement)
  let lineNodeElems := (List.range lineNodesPos.length).map fun k =>
    (⟨pointInRing ring (posCoord line (lineNodesPos.getD k ⟨0, 0⟩)),
      if k = 0 ∨ k = lineNodesPos.length - 1 then .boundary else .interior,
      0⟩ : LabeledElement)
  let ringSubElems := (noderSplit ring ringSplits).map fun e =>
    (⟨.boundary, if onAnySeg line (repPoint e) = true then .interior else .exterior,
      1⟩ : LabeledElement)
  let ringNodeElems := (splitsOf ring.length ringSplits).map fun p =>
    (⟨.boundary,
      if posCoord ring p = line.getD 0 default ∨
          posCoord ring p = line.getD (line.length - 1) default then .boundary
        else if onAnySeg line (posCoord ring p) = true then .interior
        else .exterior,
      0⟩ : LabeledElement)
  lineSubElems ++ lineNodeElems ++ ringSubElems ++ ringNodeElems ++
    [⟨.interior, .exterior, 2⟩, ⟨.exterior, .exterior, 2⟩]

/-- Modelled from the spec: relate of a polygon (shell ring) and a
linestring - the intersection matrix derived from the labeled graph
elements. -/
def relatePolyLine (ring line : List Coord) : Location → Location → ℤ :=
  matrixOf (polyLineElements ring line)

/-- A matrix cell is non-empty: the "T" of DE-9IM patterns. -/
def cellNonEmpty (d : ℤ) : Bool := decide (d ≠ -1)

/-- Modelled from the spec (4.6): DE-9IM `intersects` - not disjoint:
one of the II, IB, BI, BB cells is non-empty. -/
def matIntersects (m : Location → Location → ℤ) : Bool :=
  cellNonEmpty (m .interior .interior) || cellNonEmpty (m .interior .boundary) ||
    cellNonEmpty (m .boundary .interior) || cellNonEmpty (m .boundary .boundary)

/-- Modelled from the spec (4.6): DE-9IM `touches` - the interiors do
not meet, but a boundary meets the other geometry (patterns FT*******,
F**T***** or F***T****). -/
def matTouches (m : Location → Location → ℤ) : Bool :=
  !cellNonEmpty (m .interior .interior) &&
    (cellNonEmpty (m .interior .boundary) || cellNonEmpty (m .boundary .interior) ||
      cellNonEmpty (m .boundary .boundary))

/-- Modelled from the spec (4.6): DE-9IM `crosses` for input dimensions
dimA and dimB: pattern T*T****** when dimA < dimB, T*****T** when
dimA > dimB, and a 0-dimensional interior intersection for two
1-dimensional inputs. -/
def matCrosses (dimA dimB : ℤ) (m : Location → Location → ℤ) : Bool :=
  if dimA < dimB then
    cellNonEmpty (m .interior .interior) && cellNonEmpty (m .interior .exterior)
  else if dimB < dimA then
    cellNonEmpty (m .interior .interior) && cellNonEmpty (m .exterior .interior)
  else if dimA = 1 then decide (m .interior .interior = 0)
  else false

/-- Modelled from the spec (4.6): DE-9IM `within` - pattern T*F**F***. -/
def matWithin (m : Location → Location → ℤ) : Bool :=
  cellNonEmpty (m .interior .interior) && !cellNonEmpty (m .interior .exterior) &&
    !cellNonEmpty (m .boundary .exterior)

/-- The concrete square polygon ring of the spec's boundary-counting
test case. -/
def squareRing : List Coord := [⟨0, 0⟩, ⟨4, 0⟩, ⟨4, 4⟩, ⟨0, 4⟩, ⟨0, 0⟩]

/-- The concrete crossing segment of the spec's boundary-counting test
case. -/
def crossingSegment : List Coord := [⟨2, -1⟩, ⟨2, 5⟩]

theorem range_one_eval : List.range 1 = [0] := rfl

theorem range_four_eval : List.range 4 = [0, 1, 2, 3] := rfl

set_option maxHeartbeats 2000000 in
/-- C9: For the square polygon (0,0),(4,0),(4,4),(0,4),(0,0) related to
the segment from (2,-1) to (2,5), the derived matrix yields
crosses = true, intersects = true, touches = false, within = false, and
the Interior/Interior cell has dimension 1. -/
theorem relate_square_crossing_segment :
    matCrosses 2 1 (relatePolyLine squareRing crossingSegment) = true ∧
    matIntersects (relatePolyLine squareRing crossingSegment) = true ∧
    matTouches (relatePolyLine squareRing crossingSegment) = false ∧
    matWithin (relatePolyLine squareRing crossingSegment) = false ∧
    relatePolyLine squareRing crossingSegment Location.interior Location.interior = 1 := by
  have hLS : sortedSplits [(⟨2, -1⟩ : Coord), ⟨2, 5⟩]
      [(⟨0, 0⟩ : Coord), ⟨4, 0⟩, ⟨4, 4⟩, ⟨0, 4⟩, ⟨0, 0⟩] = [⟨0, 1/6⟩, ⟨0, 5/6⟩] := by
    norm_num [sortedSplits, splitsOnFirst, segsIdx, normPos, segmentsIntersect,
      properInter, onSegment, inBbox, orient2d, List.insertionSort,
      List.orderedInsert, SplitPos.le, dedupC, SplitPos.mk.injEq,
      range_one_eval, range_four_eval]
  have hRS : sortedSplits [(⟨0, 0⟩ : Coord), ⟨4, 0⟩, ⟨4, 4⟩, ⟨0, 4⟩, ⟨0, 0⟩]
      [(⟨2, -1⟩ : Coord), ⟨2, 5⟩] = [⟨0, 1/2⟩, ⟨2, 1/2⟩] := by
    norm_num [sortedSplits, splitsOnFirst, segsIdx, normPos, segmentsIntersect,
      properInter, onSegment, inBbox, orient2d, List.insertionSort,
      List.orderedInsert, SplitPos.le, dedupC, SplitPos.mk.injEq,
      range_one_eval, range_four_eval]
  have hLp : splitsOf 2 [(⟨0, 1/6⟩ : SplitPos), ⟨0, 5/6⟩] =
      [⟨0, 0⟩, ⟨0, 1/6⟩, ⟨0, 5/6⟩, ⟨1, 0⟩] := by
    norm_num [splitsOf, dedupC, SplitPos.mk.injEq]
  have hRp : splitsOf 5 [(⟨0, 1/2⟩ : SplitPos), ⟨2, 1/2⟩] =
      [⟨0, 0⟩, ⟨0, 1/2⟩, ⟨2, 1/2⟩, ⟨4, 0⟩] := by
    norm_num [splitsOf, dedupC, SplitPos.mk.injEq]
  have hLn : noderSplit [(⟨2, -1⟩ : Coord), ⟨2, 5⟩] [⟨0, 1/6⟩, ⟨0, 5/6⟩] =
      [[⟨2, -1⟩, ⟨2, 0⟩], [⟨2, 0⟩, ⟨2, 4⟩], [⟨2, 4⟩, ⟨2, 5⟩]] := by
    norm_num [noderSplit, noderSplitPos, splitsOf, dedupC, splitPairsEdges,
      subEdgePos, innerVertices, innerVertexCount, vertexRun, posCoord, interp,
      SplitPos.mk.injEq, Coord.mk.injEq, List.zip]
  have hRn : noderSplit [(⟨0, 0⟩ : Coord), ⟨4, 0⟩, ⟨4, 4⟩, ⟨0, 4⟩, ⟨0, 0⟩]
      [⟨0, 1/2⟩, ⟨2, 1/2⟩] =
      [[⟨0, 0⟩, ⟨2, 0⟩], [⟨2, 0⟩, ⟨4, 0⟩, ⟨4, 4⟩, ⟨2, 4⟩], [⟨2, 4⟩, ⟨0, 4⟩, ⟨0, 0⟩]] := by
    norm_num [noderSplit, noderSplitPos, splitsOf, dedupC, splitPairsEdges,
      subEdgePos, innerVertices, innerVertexCount, vertexRun, posCoord, interp,
      SplitPos.mk.injEq, Coord.mk.injEq, List.zip]
  have hElems : polyLineElements squareRing crossingSegment =
      [⟨.exterior, .interior, 1⟩, ⟨.interior, .interior, 1⟩, ⟨.exterior, .interior, 1⟩,
        ⟨.exterior, .boundary, 0⟩, ⟨.boundary, .interior, 0⟩, ⟨.boundary, .interior, 0⟩,
        ⟨.exterior, .boundary, 0⟩,
        ⟨.boundary, .exterior, 1⟩, ⟨.boundary, .exterior, 1⟩, ⟨.boundary, .exterior, 1⟩,
        ⟨.boundary, .exterior, 0⟩, ⟨.boundary, .interior, 0⟩, ⟨.boundary, .interior, 0⟩,
        ⟨.boundary, .exterior, 0⟩,
        ⟨.interior, .exterior, 2⟩, ⟨.exterior, .exterior, 2⟩] := by
    norm_num [polyLineElements, squareRing, crossingSegment, hLS, hRS, hLp, hRp,
      hLn, hRn, repPoint, posCoord, interp, pointInRing, segsIdx, onSegment,
      inBbox, orient2d, raySegCrosses, onAnySeg, SplitPos.mk.injEq, Coord.mk.injEq,
      range_one_eval, range_four_eval]
  refine ⟨?_, ?_, ?_, ?_, ?_⟩ <;> simp only [relatePolyLine, hElems] <;> decide

theorem range_two_eval : List.range 2 = [0, 1] := rfl

theorem withinSet_no_self_pairs_witness :
    ((⟨0, 0, ⟨0, 0⟩, ⟨1, 0⟩⟩ : SegRef), (⟨1, 0, ⟨0, 1⟩, ⟨1, 1⟩⟩ : SegRef)) ∈
        testedWithin [[(⟨0, 0⟩ : Coord), ⟨1, 0⟩], [⟨0, 1⟩, ⟨1, 1⟩]] false ∧
      (⟨0, 0, ⟨0, 0⟩, ⟨1, 0⟩⟩ : SegRef).edgeIdx ≠ (⟨1, 0, ⟨0, 1⟩, ⟨1, 1⟩⟩ : SegRef).edgeIdx := by
  have hmem : ((⟨0, 0, ⟨0, 0⟩, ⟨1, 0⟩⟩ : SegRef), (⟨1, 0, ⟨0, 1⟩, ⟨1, 1⟩⟩ : SegRef)) ∈
      testedWithin [[(⟨0, 0⟩ : Coord), ⟨1, 0⟩], [⟨0, 1⟩, ⟨1, 1⟩]] false := by
    norm_num [testedWithin, segRefsOf, range_one_eval, range_two_eval,
      SegRef.mk.injEq, Coord.mk.injEq]
  exact ⟨hmem,
    (withinSet_no_self_pairs [[(⟨0, 0⟩ : Coord), ⟨1, 0⟩], [⟨0, 1⟩, ⟨1, 1⟩]]).1 _ hmem⟩
